import Mathlib

/-!
ThreadPool.h : a bounded ring-buffer queue and a worker pool

A verification development over `src/ThreadPool.h`.

* `Common.LFQueue T N` embeds `Common::LFQueue<T, N>`: a `std::vector<T>` of `N`
  slots and three `std::atomic<size_t>` cells.  `size_t` is taken to be 64 bits
  wide: every cell holds a natural number below `2 ^ 64` and every arithmetic
  step on a cell is reduced modulo `2 ^ 64`.
* Loops that spin (`while (full())`, the compare-exchange loop of `front`, the
  worker loop) carry a fuel argument that bounds how often the loop body may
  run; `none` means that the fuel ran out before the loop was left.
* The operations are embedded for calls that run one at a time: between two
  atomic steps of one call no other thread changes the queue.
* A call of a stored callable either returns or throws.  An exception that
  leaves the thread function of a worker ends the process; the worker loop
  records it as an abort, which is not a return.  The work item that `enqueue`
  pushes calls a `packaged_task`, which can be invoked once: a second call
  throws.
-/

namespace Common

/-- Number of values of a 64-bit `size_t`. -/
def SIZE_MOD : Nat := 2 ^ 64

/-- Addition of `size_t` values (wraps around). -/
def size_add (a b : Nat) : Nat := (a + b) % SIZE_MOD

/-- Subtraction of `size_t` values (wraps around); `b` is at most `2 ^ 64`. -/
def size_sub (a b : Nat) : Nat := (a + SIZE_MOD - b) % SIZE_MOD

/-- The call `cell.fetch_add(d)`: the value read, and the new content of the cell. -/
def fetch_add (cell d : Nat) : Nat × Nat := (cell, size_add cell d)

/-- The call `cell.compare_exchange_strong(expected, desired)`: whether the exchange took
place, the new content of the cell, and the new content of `expected`. -/
def compare_exchange_strong (cell expected desired : Nat) : Bool × Nat × Nat :=
  if cell = expected then (true, desired, expected) else (false, cell, cell)

/-- The storage index `c & (N - 1)` of cursor value `c`, with `N - 1` computed in `size_t`. -/
def slot_index (N c : Nat) : Nat := c &&& size_sub N 1

/-- State of an `LFQueue<T, N>`: the slot vector and the three atomic cells. -/
structure LFQueue (T : Type) (N : Nat) where
  store_ : List T
  next_read_index_ : Nat
  next_write_index_ : Nat
  num_elements_ : Nat

namespace LFQueue

variable {T : Type} {N : Nat}

/-- The constructor `LFQueue() : store_(N, T())`; the cells start at `0`. -/
def new (T : Type) (N : Nat) [Inhabited T] : LFQueue T N :=
  { store_ := List.replicate N default
    next_read_index_ := 0
    next_write_index_ := 0
    num_elements_ := 0 }

/-- The member `size()`. -/
def size (q : LFQueue T N) : Nat := q.num_elements_

/-- The member `empty()`. -/
def empty (q : LFQueue T N) : Bool := decide (q.num_elements_ = 0)

/-- The member `full()`: `num_elements_ >= N - 10`, the right side computed in `size_t`. -/
def full (q : LFQueue T N) : Bool := decide (size_sub N 10 ≤ q.num_elements_)

/-- The three statements of `push` that follow its spin loop. -/
def push_body (q : LFQueue T N) (element : T) : LFQueue T N :=
  let r := fetch_add q.next_write_index_ 1
  let idx := r.1
  { store_ := q.store_.set (slot_index N idx) element
    next_read_index_ := q.next_read_index_
    next_write_index_ := r.2
    num_elements_ := (fetch_add q.num_elements_ 1).2 }

/-- The member `push(element)`.  `fuel` bounds the number of times the body of
`while (full())` runs; the queue does not change while the caller spins. -/
def push (fuel : Nat) (q : LFQueue T N) (element : T) : Option (LFQueue T N) :=
  if q.full then
    match fuel with
    | 0 => none
    | fuel + 1 => push fuel q element
  else some (q.push_body element)

/-- The loop `while (expected > 0 && !num_elements_.compare_exchange_strong(expected, expected - 1))`
of `front`, started with `num_elements_ = cell`.  `fuel` bounds the number of times the loop body
runs.  The result is the content of `num_elements_` and of `expected` when the loop is left. -/
def front_reserve (fuel : Nat) (cell expected : Nat) : Option (Nat × Nat) :=
  if 0 < expected then
    match compare_exchange_strong cell expected (expected - 1) with
    | (true, cell1, expected1) => some (cell1, expected1)
    | (false, cell1, expected1) =>
      match fuel with
      | 0 => none
      | fuel + 1 => front_reserve fuel cell1 expected1
  else some (cell, expected)

/-- The member `front()`.  The result `none` stands for `return nullptr`, the result `some x`
for `return store_[ri & (N - 1)]` with `x` the content of that slot. -/
def front [Inhabited T] (fuel : Nat) (q : LFQueue T N) : Option (Option T × LFQueue T N) :=
  let expected := q.num_elements_
  match front_reserve fuel q.num_elements_ expected with
  | none => none
  | some (cell1, expected1) =>
    if expected1 = 0 then
      some (none, { q with num_elements_ := cell1 })
    else
      let r := fetch_add q.next_read_index_ 1
      let ri := r.1
      some (some (q.store_.getD (slot_index N ri) default),
        { store_ := q.store_
          next_read_index_ := r.2
          next_write_index_ := q.next_write_index_
          num_elements_ := cell1 })

end LFQueue

/-- One call of a sequential client of the queue. -/
inductive Op (T : Type) where
  | push (element : T)
  | front

variable {T : Type} {N : Nat}

/-- A sequence of calls executed one at a time, each call completing before the next starts.
The result is the final queue and the results of the `front` calls, in call order. -/
def run [Inhabited T] (fuel : Nat) : List (Op T) → LFQueue T N → Option (LFQueue T N × List (Option T))
  | [], q => some (q, [])
  | Op.push element :: ops, q =>
    match q.push fuel element with
    | none => none
    | some q1 => run fuel ops q1
  | Op.front :: ops, q =>
    match q.front fuel with
    | none => none
    | some (r, q1) =>
      match run fuel ops q1 with
      | none => none
      | some (q2, rs) => some (q2, r :: rs)

/-- Every `push` of the sequence is issued in a state in which `full()` is false. -/
def pushes_when_not_full [Inhabited T] : List (Op T) → LFQueue T N → Bool
  | [], _ => true
  | Op.push element :: ops, q => !q.full && pushes_when_not_full ops (q.push_body element)
  | Op.front :: ops, q =>
    match q.front 0 with
    | none => false
    | some (_, q1) => pushes_when_not_full ops q1

/-- The elements pushed by a sequence of calls, in call order. -/
def pushed : List (Op T) → List T
  | [] => []
  | Op.push element :: ops => element :: pushed ops
  | Op.front :: ops => pushed ops

/-- The elements returned by `front` calls, in call order (empty results dropped). -/
def returned (rs : List (Option T)) : List T := rs.reduceOption

/-- The queue holds exactly the elements `pending`, oldest first: `R` is the number of elements
handed out so far (the read cursor before reduction modulo `2 ^ 64`). -/
structure Holds (q : LFQueue T N) (pending : List T) (R : Nat) : Prop where
  len : q.store_.length = N
  rd : q.next_read_index_ = R % SIZE_MOD
  wr : q.next_write_index_ = (R + pending.length) % SIZE_MOD
  cnt : q.num_elements_ = pending.length
  slots : ∀ i (h : i < pending.length), q.store_[(R + i) % N]? = some pending[i]

/-- A run on a queue of 16 slots whose cursors pass 16: twenty rounds of two pushes and two
pops, then a pop on the drained queue. -/
def wrap_ops : List (Op Nat) :=
  (List.range 20).flatMap (fun i => [Op.push (2 * i), Op.push (2 * i + 1), Op.front, Op.front])

end Common


/-! ## The pool -/

/-- State of a `ThreadPool<N>` as seen by one thread at a time: the `stop` flag and the queue
`q` of `function<void()>` values.  A `function<void()>` is empty (`none`) or holds a callable;
a call of a callable acts on the program state `W` outside the pool and either returns, with
the new program state, or throws (`none`). -/
structure ThreadPool (W : Type) (N : Nat) where
  stop : Bool
  q : Common.LFQueue (Option (W → Option W)) N

namespace ThreadPool

variable {W : Type} {N : Nat}

/-- The constructor `ThreadPool(num_threads) : stop(false)`, before any worker has run. -/
def new (W : Type) (N : Nat) : ThreadPool W N :=
  { stop := false, q := Common.LFQueue.new (Option (W → Option W)) N }

/-- The loop `while (q.empty() && !stop)` of a worker.  `fuel` bounds the number of times its
body runs; the pool does not change while the only worker spins. -/
def worker_wait (fuel : Nat) (p : ThreadPool W N) : Option Unit :=
  if p.q.empty && !p.stop then
    match fuel with
    | 0 => none
    | fuel + 1 => worker_wait fuel p
  else some ()

/-- The statements `f = std::move(q.front()); if (f) f();` of a worker: the new pool, the
program state after them (`none` when the call `f()` throws), and the callable that was
called, if one was.  A `nullptr` returned by `front` becomes the empty `function<void()>`. -/
def worker_iter (fuel : Nat) (p : ThreadPool W N) (w : W) :
    Option (ThreadPool W N × Option W × Option (W → Option W)) :=
  match p.q.front fuel with
  | none => none
  | some (r, q1) =>
    let f : Option (W → Option W) :=
      match r with
      | none => none
      | some x => x
    match f with
    | some g => some ({ stop := p.stop, q := q1 }, g w, some g)
    | none => some ({ stop := p.stop, q := q1 }, some w, none)

/-- How the thread function of a worker ends: it returns, or an exception leaves it, which
ends the process (`std::terminate`).  Both carry the pool at that moment and the callables
that were called, in the order of the calls; a return also carries the program state. -/
inductive WorkerEnd (W : Type) (N : Nat) where
  | returned (p : ThreadPool W N) (w : W) (trace : List (W → Option W))
  | aborted (p : ThreadPool W N) (trace : List (W → Option W))

/-- The trace of a worker that made the call `ran` and then ended with `e`. -/
def WorkerEnd.after (ran : Option (W → Option W)) : WorkerEnd W N → WorkerEnd W N
  | WorkerEnd.returned p w trace => WorkerEnd.returned p w (ran.toList ++ trace)
  | WorkerEnd.aborted p trace => WorkerEnd.aborted p (ran.toList ++ trace)

/-- The body of a worker thread, `while (true) { ... }`, run by a single worker with no other
thread active.  `fuel` bounds the number of times a loop body runs; `none` when it runs out. -/
def worker : Nat → ThreadPool W N → W → Option (WorkerEnd W N)
  | 0, _, _ => none
  | fuel + 1, p, w =>
    match worker_wait fuel p with
    | none => none
    | some _ =>
      if p.stop && p.q.empty then some (WorkerEnd.returned p w [])
      else
        match worker_iter fuel p w with
        | none => none
        | some (p1, none, ran) => some (WorkerEnd.aborted p1 ran.toList)
        | some (p1, some w1, ran) =>
          match worker fuel p1 w1 with
          | none => none
          | some e => some (e.after ran)

/-- The statements `f = std::move(q.front()); if (f) f();` run `n` times in a row, or until a
call throws: the pool, and the program state (`none` after a throw). -/
def worker_iters (fuel : Nat) : Nat → ThreadPool W N → W → Option (ThreadPool W N × Option W)
  | 0, p, w => some (p, some w)
  | n + 1, p, w =>
    match worker_iter fuel p w with
    | none => none
    | some (p1, none, _) => some (p1, none)
    | some (p1, some w1, _) => worker_iters fuel n p1 w1

/-- Calls made one after the other on the program state; `none` as soon as one throws. -/
def run_all : List (W → Option W) → W → Option W
  | [], w => some w
  | g :: gs, w =>
    match g w with
    | none => none
    | some w1 => run_all gs w1

/-- The destructor up to its first `join`: `stop = true`. -/
def request_stop (p : ThreadPool W N) : ThreadPool W N := { stop := true, q := p.q }

end ThreadPool

/-- Program state around a pool whose tasks return values of type `V`: the state `user` that
the submitted callables act on, and the shared states of the `packaged_task`s created so far
(`none`: no value yet, `some v`: ready with value `v`). -/
structure World (U V : Type) where
  user : U
  shared : Nat → Option V
  next : Nat

namespace ThreadPool

variable {U V A : Type} {N : Nat}

/-- The call `std::bind(f, args)`. -/
def bind (f : A → U → U × V) (args : A) : U → U × V := f args

/-- The call `(*task)()` on the `packaged_task` with shared state `id`.  A `packaged_task` can
be invoked once: when its shared state holds no value the call runs the bound callable and
stores its result in the shared state; when the shared state already holds a value the call
throws (`future_error`, promise already satisfied) and nothing is run. -/
def run_task (id : Nat) (g : U → U × V) (w : World U V) : Option (World U V) :=
  match w.shared id with
  | some _ => none
  | none =>
    let r := g w.user
    some { user := r.1, shared := Function.update w.shared id (some r.2), next := w.next }

/-- The calls `(*task)()` that the work items `[task] { (*task)(); }` of the tasks `ts` make,
a task being the index of its shared state and its bound callable. -/
def task_calls (ts : List (Nat × (U → U × V))) : List (World U V → Option (World U V)) :=
  ts.map (fun t => run_task t.1 t.2)

/-- The member `enqueue(f, args)`.  A future is the index of its shared state.  The result is
the new pool, the new program state, and either the returned future or the text of the
`runtime_error` thrown; `none` when `push` spins beyond `fuel`. -/
def enqueue (fuel : Nat) (p : ThreadPool (World U V) N) (w : World U V)
    (f : A → U → U × V) (args : A) :
    Option (ThreadPool (World U V) N × World U V × Except String Nat) :=
  let id := w.next
  let task : World U V → Option (World U V) := run_task id (bind f args)
  let w1 : World U V := { user := w.user, shared := Function.update w.shared id none, next := id + 1 }
  let res := id
  if p.stop then
    some (p, w1, Except.error "enqueue on stopped ThreadPool")
  else
    match p.q.push fuel (some task) with
    | none => none
    | some q1 => some ({ stop := p.stop, q := q1 }, w1, Except.ok res)

end ThreadPool

namespace ThreadPool

variable {W U V A : Type} {N : Nat}

/-- Whether a worker ended by an exception that left its thread function. -/
def WorkerEnd.is_aborted : WorkerEnd W N → Bool
  | WorkerEnd.returned _ _ _ => false
  | WorkerEnd.aborted _ _ => true

/-- The calls `enqueue(f, a)` for the arguments `a` of a list, one after the other, none of
which throws. -/
def submit_all (fuel : Nat) (f : A → U → U × V) :
    List A → ThreadPool (World U V) N → World U V →
      Option (ThreadPool (World U V) N × World U V)
  | [], p, w => some (p, w)
  | a :: as, p, w =>
    match enqueue fuel p w f a with
    | some (p1, w1, Except.ok _) => submit_all fuel f as p1 w1
    | _ => none

end ThreadPool

/-- Three callables that append their number to a log and return. -/
def demo_tasks : List (List Nat → Option (List Nat)) :=
  [fun l => some (l ++ [1]), fun l => some (l ++ [2]), fun l => some (l ++ [3])]

/-- A pool of capacity 16 whose queue holds `demo_tasks` and whose `stop` flag is set. -/
def demo_pool : ThreadPool (List Nat) (2 ^ 4) :=
  { stop := true
    q := (((Common.LFQueue.new (Option (List Nat → Option (List Nat))) (2 ^ 4)).push_body
      (some (fun l => some (l ++ [1])))).push_body (some (fun l => some (l ++ [2])))).push_body
      (some (fun l => some (l ++ [3]))) }

/-- A program state with user state `0` and no shared state allocated. -/
def demo_world : World Nat Nat := { user := 0, shared := fun _ => none, next := 0 }

/-- A callable that adds its argument to the user state and returns the old user state
times ten. -/
def demo_callable (args : Nat) (u : Nat) : Nat × Nat := (u + args, 10 * u)

/-- Two tasks, with shared states `0` and `1`. -/
def demo_ts : List (Nat × (Nat → Nat × Nat)) :=
  [(0, ThreadPool.bind demo_callable 5), (1, ThreadPool.bind demo_callable 7)]

/-- A pool of capacity 16 whose queue holds the work items of `demo_ts`. -/
def demo_task_pool (stop : Bool) : ThreadPool (World Nat Nat) (2 ^ 4) :=
  { stop := stop
    q := ((Common.LFQueue.new (Option (World Nat Nat → Option (World Nat Nat))) (2 ^ 4)).push_body
      (some (ThreadPool.run_task 0 (ThreadPool.bind demo_callable 5)))).push_body
      (some (ThreadPool.run_task 1 (ThreadPool.bind demo_callable 7))) }

/-- A program state with user state `0` in which the shared states `0` and `1` are allocated
and hold no value. -/
def demo_task_world : World Nat Nat := { user := 0, shared := fun _ => none, next := 2 }

/-! ## Threads

The pool with its worker threads and one submitting thread, as a transition system.  One step
is one access to shared memory by one thread, in the order the source performs them; the atomic
cells are sequentially consistent (every access in the source is `memory_order_seq_cst` or the
default).  A schedule is the list of the threads that move, in order.  Task `i` is the `i`-th
callable submitted: it increments the shared counter and then makes its future ready.  The
destructor is not part of the system, so no step writes `stop`. -/

namespace Concurrent

open Common

/-- Where a worker thread stands in its loop. -/
inductive WorkerPc where
  /-- At `while (q.empty() && !stop)`. -/
  | spin
  /-- At `if (stop && q.empty()) return;`. -/
  | exit_check
  /-- In `front`, at `expected = num_elements_.load()`. -/
  | load
  /-- In `front`, at the condition of the compare-exchange loop. -/
  | cas
  /-- In `front`, at `ri = next_read_index_.fetch_add(1)`. -/
  | fetch
  /-- In `front`, at `return store_[ri & (N - 1)]`. -/
  | read
  /-- At `if (f) f();`. -/
  | call
  /-- Inside the task, at the atomic increment of the shared counter. -/
  | incr
  /-- Inside the task, at the point where the future becomes ready. -/
  | resolve
  /-- Returned from the thread function. -/
  | done
  deriving DecidableEq

/-- Local variables of a worker thread. -/
structure Worker where
  pc : WorkerPc
  expected : Nat
  ri : Nat
  f : Option Nat

/-- Where the submitting thread stands in `enqueue` and `push`. -/
inductive SubmitPc where
  /-- In `enqueue`, at `if (stop) throw`. -/
  | check_stop
  /-- In `push`, at `while (full())`. -/
  | spin_full
  /-- In `push`, at `idx = next_write_index_.fetch_add(1)`. -/
  | fetch
  /-- In `push`, at `store_[idx & (N - 1)] = element`. -/
  | store
  /-- In `push`, at `num_elements_.fetch_add(1)`. -/
  | count
  /-- After a throw out of `enqueue`. -/
  | thrown
  deriving DecidableEq

/-- Local variables of the submitting thread: `j` calls of `enqueue` have returned. -/
structure Submitter where
  pc : SubmitPc
  j : Nat
  idx : Nat

/-- State of the whole system. -/
structure Sys (N : Nat) where
  stop : Bool
  q : LFQueue (Option Nat) N
  workers : Nat → Worker
  sub : Submitter
  counter : Nat
  resolved : Nat → Bool
  /-- Bookkeeping, not program state: how often the body of task `i` has been run. -/
  runs : Nat → Nat

/-- A thread of the system. -/
inductive Tid where
  | submitter
  | worker (t : Nat)

variable {N : Nat}

/-- The system after the constructor of the pool: every worker at the top of its loop, nothing
submitted, the counter at `0`, no future ready. -/
def init (N : Nat) : Sys N :=
  { stop := false
    q := LFQueue.new (Option Nat) N
    workers := fun _ => { pc := WorkerPc.spin, expected := 0, ri := 0, f := none }
    sub := { pc := SubmitPc.check_stop, j := 0, idx := 0 }
    counter := 0
    resolved := fun _ => false
    runs := fun _ => 0 }

/-- One step of worker `t` whose local variables are `wk`. -/
def worker_step (s : Sys N) (t : Nat) (wk : Worker) : Sys N :=
  match wk.pc with
  | WorkerPc.spin =>
    if s.q.empty && !s.stop then s
    else { s with workers := Function.update s.workers t { wk with pc := WorkerPc.exit_check } }
  | WorkerPc.exit_check =>
    if s.stop && s.q.empty then
      { s with workers := Function.update s.workers t { wk with pc := WorkerPc.done } }
    else { s with workers := Function.update s.workers t { wk with pc := WorkerPc.load } }
  | WorkerPc.load =>
    let wk1 : Worker := { wk with pc := WorkerPc.cas, expected := s.q.num_elements_ }
    { s with workers := Function.update s.workers t wk1 }
  | WorkerPc.cas =>
    if 0 < wk.expected then
      match compare_exchange_strong s.q.num_elements_ wk.expected (wk.expected - 1) with
      | (true, cell1, expected1) =>
        let wk1 : Worker := { wk with pc := WorkerPc.fetch, expected := expected1 }
        { s with
          q := { s.q with num_elements_ := cell1 }
          workers := Function.update s.workers t wk1 }
      | (false, cell1, expected1) =>
        { s with
          q := { s.q with num_elements_ := cell1 }
          workers := Function.update s.workers t { wk with expected := expected1 } }
    else
      { s with workers := Function.update s.workers t { wk with pc := WorkerPc.call, f := none } }
  | WorkerPc.fetch =>
    let r := fetch_add s.q.next_read_index_ 1
    { s with
      q := { s.q with next_read_index_ := r.2 }
      workers := Function.update s.workers t { wk with pc := WorkerPc.read, ri := r.1 } }
  | WorkerPc.read =>
    let wk1 : Worker :=
      { wk with pc := WorkerPc.call, f := s.q.store_.getD (slot_index N wk.ri) default }
    { s with workers := Function.update s.workers t wk1 }
  | WorkerPc.call =>
    match wk.f with
    | none => { s with workers := Function.update s.workers t { wk with pc := WorkerPc.spin } }
    | some _ => { s with workers := Function.update s.workers t { wk with pc := WorkerPc.incr } }
  | WorkerPc.incr =>
    { s with
      counter := s.counter + 1
      runs := wk.f.elim s.runs (fun i => Function.update s.runs i (s.runs i + 1))
      workers := Function.update s.workers t { wk with pc := WorkerPc.resolve } }
  | WorkerPc.resolve =>
    match wk.f with
    | none => { s with workers := Function.update s.workers t { wk with pc := WorkerPc.spin } }
    | some i =>
      { s with
        resolved := Function.update s.resolved i true
        workers := Function.update s.workers t { wk with pc := WorkerPc.spin } }
  | WorkerPc.done => s

/-- One step of the submitting thread, which submits `M` tasks one after the other. -/
def submitter_step (M : Nat) (s : Sys N) : Sys N :=
  match s.sub.pc with
  | SubmitPc.check_stop =>
    if s.sub.j < M then
      if s.stop then { s with sub := { s.sub with pc := SubmitPc.thrown } }
      else { s with sub := { s.sub with pc := SubmitPc.spin_full } }
    else s
  | SubmitPc.spin_full =>
    if s.q.full then s else { s with sub := { s.sub with pc := SubmitPc.fetch } }
  | SubmitPc.fetch =>
    let r := fetch_add s.q.next_write_index_ 1
    { s with
      q := { s.q with next_write_index_ := r.2 }
      sub := { s.sub with pc := SubmitPc.store, idx := r.1 } }
  | SubmitPc.store =>
    { s with
      q := { s.q with store_ := s.q.store_.set (slot_index N s.sub.idx) (some s.sub.j) }
      sub := { s.sub with pc := SubmitPc.count } }
  | SubmitPc.count =>
    { s with
      q := { s.q with num_elements_ := (fetch_add s.q.num_elements_ 1).2 }
      sub := { s.sub with pc := SubmitPc.check_stop, j := s.sub.j + 1 } }
  | SubmitPc.thrown => s

/-- One step of thread `tid` in a pool of `nw` workers fed `M` tasks. -/
def step (nw M : Nat) (s : Sys N) : Tid → Sys N
  | Tid.submitter => submitter_step M s
  | Tid.worker t => if t < nw then worker_step s t (s.workers t) else s

/-- The system after the steps of a schedule. -/
def exec (nw M : Nat) (sched : List Tid) (s : Sys N) : Sys N :=
  sched.foldl (step nw M) s

/-- Number of indices below `n` at which `p` is true. -/
def count_true (p : Nat → Bool) : Nat → Nat
  | 0 => 0
  | n + 1 => count_true p n + (if p n then 1 else 0)

/-- The task, if any, that worker `wk` has claimed and not yet completed. -/
def claimed (wk : Worker) : Option Nat :=
  match wk.pc with
  | WorkerPc.read => some wk.ri
  | WorkerPc.call => wk.f
  | WorkerPc.incr => wk.f
  | WorkerPc.resolve => wk.f
  | _ => none

/-- Number of workers below `nw` that stand at `c`. -/
def pc_count (ws : Nat → Worker) (c : WorkerPc) (nw : Nat) : Nat :=
  count_true (fun t => decide ((ws t).pc = c)) nw

/-- What holds of the submitting thread and the cells it writes: `j` pushes are complete, the
write cursor counts the slots handed out, and slot `i` holds task `i` once it is written. -/
structure SubInv (N M : Nat) (stop : Bool) (store : List (Option Nat)) (widx : Nat)
    (sub : Submitter) : Prop where
  stop : stop = false
  len : store.length = N
  j_le : sub.j ≤ M
  j_lt : sub.pc = SubmitPc.spin_full ∨ sub.pc = SubmitPc.fetch ∨ sub.pc = SubmitPc.store ∨
    sub.pc = SubmitPc.count → sub.j < M
  wr : widx = sub.j + (if sub.pc = SubmitPc.store ∨ sub.pc = SubmitPc.count then 1 else 0)
  idx : sub.pc = SubmitPc.store ∨ sub.pc = SubmitPc.count → sub.idx = sub.j
  slots : ∀ i, i < sub.j + (if sub.pc = SubmitPc.count then 1 else 0) →
    store[i]? = some (some i)

/-- What holds of the tasks claimed by workers: a claimed task lies below the read cursor and
its future is not ready, no task is claimed by two workers, a ready future belongs to a task
below the read cursor, and a worker inside a task holds a callable. -/
structure Claims (nw : Nat) (ws : Nat → Worker) (ridx : Nat) (resolved : Nat → Bool) : Prop where
  lt : ∀ t, t < nw → ∀ i, claimed (ws t) = some i → i < ridx ∧ resolved i = false
  inj : ∀ t, t < nw → ∀ t1, t1 < nw → ∀ i, claimed (ws t) = some i → claimed (ws t1) = some i →
    t = t1
  res_lt : ∀ i, resolved i = true → i < ridx
  busy : ∀ t, t < nw → (ws t).pc = WorkerPc.incr ∨ (ws t).pc = WorkerPc.resolve →
    ∃ i, (ws t).f = some i

/-- What holds of the bookkeeping: the body of a task whose future is ready has run once, the
body of a claimed task has run once if its worker is past the increment and not at all
otherwise, and the body of a task at or above the read cursor has not run. -/
structure Runs (nw : Nat) (ws : Nat → Worker) (ridx : Nat) (resolved : Nat → Bool)
    (runs : Nat → Nat) : Prop where
  ready : ∀ i, resolved i = true → runs i = 1
  held : ∀ t, t < nw → ∀ i, claimed (ws t) = some i →
    runs i = if (ws t).pc = WorkerPc.resolve then 1 else 0
  fresh : ∀ i, ridx ≤ i → runs i = 0

/-- The invariant of the system: the count plus the reservations not yet turned into a read
index plus the read cursor is the number of complete pushes, and the counter is the number of
ready futures plus the number of workers between the increment and the completion. -/
structure Inv (nw M : Nat) (s : Sys N) : Prop where
  sub : SubInv N M s.stop s.q.store_ s.q.next_write_index_ s.sub
  claims : Claims nw s.workers s.q.next_read_index_ s.resolved
  balance : s.q.num_elements_ + pc_count s.workers WorkerPc.fetch nw + s.q.next_read_index_
    = s.sub.j
  tally : s.counter = count_true s.resolved M + pc_count s.workers WorkerPc.resolve nw
  runs : Runs nw s.workers s.q.next_read_index_ s.resolved s.runs

/-- A schedule in which the submitter runs `M` calls of `enqueue` to the end and then worker `0`
runs `M` rounds of its loop. -/
def serial_schedule (M : Nat) : List Tid :=
  (List.replicate (5 * M) Tid.submitter) ++ (List.replicate (9 * M) (Tid.worker 0))

end Concurrent

/-! ## Cursors of any width, and states near the overflow of a cursor -/

namespace Common

/-- The call `cell.fetch_add(d)` on a cell that is `w` bits wide: the value read, and the new
content of the cell. -/
def fetch_add_w (w cell d : Nat) : Nat × Nat := (cell, (cell + d) % 2 ^ w)

/-- The storage index `c & (N - 1)` with `N - 1` computed in an unsigned type of `w` bits. -/
def slot_index_w (w N c : Nat) : Nat := c &&& ((N + 2 ^ w - 1) % 2 ^ w)

/-- Rounds of one `push` followed by one `front`, `n` of them. -/
def rounds : Nat → List (Op Nat)
  | 0 => []
  | n + 1 => Op.push n :: Op.front :: rounds n

/-- A queue of 16 slots that holds `[41, 42]` in slots 13 and 14, with the write cursor at the
largest value of a `size_t`. -/
def brink_queue : LFQueue Nat (2 ^ 4) :=
  { store_ := [0, 0, 0, 0, 0, 0, 0, 0, 0, 0, 0, 0, 0, 41, 42, 0]
    next_read_index_ := 18446744073709551613
    next_write_index_ := 18446744073709551615
    num_elements_ := 2 }

end Common

/-! ## The worker loop, one round at a time -/

namespace ThreadPool

variable {W : Type} {N : Nat}

/-- State of a worker thread between two rounds of `while (true)`: still in the loop, returned
from the thread function, or ended with the process by an exception that left the thread
function. -/
inductive WorkerState (W : Type) (N : Nat) where
  | running (p : ThreadPool W N) (w : W)
  | terminated (p : ThreadPool W N) (w : W)
  | aborted (p : ThreadPool W N)

/-- The state of a worker after the statement `if (f) f();`: in the loop with the program
state the call left, or aborted when the call threw. -/
def WorkerState.after_call (p : ThreadPool W N) : Option W → WorkerState W N
  | some w => WorkerState.running p w
  | none => WorkerState.aborted p

/-- One round of the body of `while (true)` of a worker, with no other thread active: the
state after the round and the callable that was called in it, if one was.  `fuel` bounds the
number of times the body of a spin loop runs; `none` when the fuel runs out. -/
def worker_round (fuel : Nat) (p : ThreadPool W N) (w : W) :
    Option (WorkerState W N × Option (W → Option W)) :=
  match worker_wait fuel p with
  | none => none
  | some _ =>
    if p.stop && p.q.empty then some (WorkerState.terminated p w, none)
    else
      match worker_iter fuel p w with
      | none => none
      | some (p1, w1, ran) => some (WorkerState.after_call p1 w1, ran)

/-- The step relation of the worker loop: a running worker moves to the state its next round
produces; a terminated or aborted worker does not move. -/
def worker_steps (fuel : Nat) : WorkerState W N → WorkerState W N → Prop
  | WorkerState.running p w, s1 => ∃ ran, worker_round fuel p w = some (s1, ran)
  | WorkerState.terminated _ _, _ => False
  | WorkerState.aborted _, _ => False

end ThreadPool
namespace Common

variable {T : Type} {N : Nat}

/-! ## Arithmetic of cursors and indices -/

theorem size_mod_eq : SIZE_MOD = 18446744073709551616 := by
  unfold SIZE_MOD; norm_num

theorem pow_lt_size_mod {k : Nat} (hk : k < 64) : 2 ^ k < SIZE_MOD := by
  unfold SIZE_MOD
  exact Nat.pow_lt_pow_right (by norm_num) hk

theorem pow_dvd_size_mod {k : Nat} (hk : k < 64) : 2 ^ k ∣ SIZE_MOD := by
  unfold SIZE_MOD
  exact pow_dvd_pow 2 (Nat.le_of_lt hk)

theorem size_sub_one {n : Nat} (h1 : 1 ≤ n) (h2 : n < SIZE_MOD) : size_sub n 1 = n - 1 := by
  unfold size_sub
  rw [size_mod_eq] at *
  omega

theorem size_sub_ten {n : Nat} (h1 : 10 ≤ n) (h2 : n < SIZE_MOD) : size_sub n 10 = n - 10 := by
  unfold size_sub
  rw [size_mod_eq] at *
  omega

theorem slot_index_pow (k c : Nat) (hk : k < 64) : slot_index (2 ^ k) c = c % 2 ^ k := by
  unfold slot_index
  rw [size_sub_one Nat.one_le_two_pow (pow_lt_size_mod hk)]
  exact Nat.and_pow_two_sub_one_eq_mod c k

theorem slot_index_wrapped (k c : Nat) (hk : k < 64) :
    slot_index (2 ^ k) (c % SIZE_MOD) = c % 2 ^ k := by
  rw [slot_index_pow k _ hk]
  exact Nat.mod_mod_of_dvd c (pow_dvd_size_mod hk)

end Common


namespace Common

variable {T : Type} {N : Nat}

/-! ## Single calls -/

theorem front_reserve_zero (fuel : Nat) : LFQueue.front_reserve fuel 0 0 = some (0, 0) := by
  cases fuel <;> simp [LFQueue.front_reserve]

theorem front_reserve_pos (fuel c : Nat) (hc : 0 < c) :
    LFQueue.front_reserve fuel c c = some (c - 1, c) := by
  cases fuel <;> simp [LFQueue.front_reserve, compare_exchange_strong, hc]

theorem front_of_empty [Inhabited T] (fuel : Nat) (q : LFQueue T N) (h : q.num_elements_ = 0) :
    q.front fuel = some (none, q) := by
  cases q with
  | mk s r w c =>
    simp only at h
    subst h
    simp [LFQueue.front, front_reserve_zero]

theorem front_of_nonempty [Inhabited T] (fuel : Nat) (q : LFQueue T N) (h : 0 < q.num_elements_) :
    q.front fuel = some (some (q.store_.getD (slot_index N q.next_read_index_) default),
      { store_ := q.store_
        next_read_index_ := size_add q.next_read_index_ 1
        next_write_index_ := q.next_write_index_
        num_elements_ := q.num_elements_ - 1 }) := by
  have h0 : q.num_elements_ ≠ 0 := Nat.pos_iff_ne_zero.mp h
  simp [LFQueue.front, front_reserve_pos fuel _ h, h0, fetch_add]

theorem push_of_not_full (fuel : Nat) (q : LFQueue T N) (element : T) (h : q.full = false) :
    q.push fuel element = some (q.push_body element) := by
  cases fuel <;> simp [LFQueue.push, h]

theorem push_of_full (fuel : Nat) (q : LFQueue T N) (element : T) (h : q.full = true) :
    q.push fuel element = none := by
  induction fuel with
  | zero => simp [LFQueue.push, h]
  | succ n ih => rw [LFQueue.push]; simp [h, ih]

end Common

namespace Common

variable {T : Type} {N : Nat}

/-! ## The ring keeps the pending elements -/

theorem mod_ne_of_lt_of_lt {n a i j : Nat} (hij : i < j) (hj : j < n) :
    (a + i) % n ≠ (a + j) % n := by
  intro h
  have h1 : (a + j - (a + i)) % n = 0 := Nat.sub_mod_eq_zero_of_mod_eq h.symm
  have h2 : a + j - (a + i) = j - i := by omega
  rw [h2, Nat.mod_eq_of_lt (by omega)] at h1
  omega

theorem holds_new [Inhabited T] (N : Nat) : Holds (LFQueue.new T N) [] 0 := by
  refine ⟨by simp [LFQueue.new], by simp [LFQueue.new], by simp [LFQueue.new], by simp [LFQueue.new], ?_⟩
  intro i h
  simp at h

theorem holds_front [Inhabited T] {k : Nat} (hk : k < 64) (fuel : Nat) {q : LFQueue T (2 ^ k)}
    {x : T} {rest : List T} {R : Nat} (h : Holds q (x :: rest) R) :
    ∃ q1, q.front fuel = some (some x, q1) ∧ Holds q1 rest (R + 1) := by
  have hc : 0 < q.num_elements_ := by rw [h.cnt]; simp
  have h0 := h.slots 0 (by simp)
  simp only [Nat.add_zero, List.getElem_cons_zero] at h0
  have hx : q.store_.getD (slot_index (2 ^ k) q.next_read_index_) default = x := by
    rw [h.rd, slot_index_wrapped k R hk, List.getD_eq_getElem?_getD, h0]; rfl
  refine ⟨LFQueue.mk q.store_ (size_add q.next_read_index_ 1) q.next_write_index_
      (q.num_elements_ - 1),
    by rw [front_of_nonempty fuel q hc, hx], ⟨h.len, ?_, ?_, ?_, ?_⟩⟩
  · show size_add q.next_read_index_ 1 = _
    rw [h.rd]; unfold size_add; rw [size_mod_eq]; omega
  · show q.next_write_index_ = _
    rw [h.wr]; simp only [List.length_cons]; congr 1; omega
  · show q.num_elements_ - 1 = _
    rw [h.cnt]; simp
  · intro i hi
    have h1 := h.slots (i + 1) (by simp; omega)
    simp only [List.getElem_cons_succ] at h1
    show q.store_[(R + 1 + i) % 2 ^ k]? = _
    rw [← h1]; congr 2; omega

theorem holds_push {k : Nat} (hk : k < 64) {q : LFQueue T (2 ^ k)} {pending : List T} {R : Nat}
    (h : Holds q pending R) (hlen : pending.length < 2 ^ k) (element : T) :
    Holds (q.push_body element) (pending ++ [element]) R := by
  have hN : 2 ^ k < SIZE_MOD := pow_lt_size_mod hk
  have hidx : slot_index (2 ^ k) q.next_write_index_ = (R + pending.length) % 2 ^ k := by
    rw [h.wr, slot_index_wrapped k _ hk]
  refine ⟨?_, h.rd, ?_, ?_, ?_⟩
  · simp [LFQueue.push_body, h.len]
  · show size_add q.next_write_index_ 1 = _
    rw [h.wr]; unfold size_add; simp only [List.length_append, List.length_singleton]
    rw [size_mod_eq]; omega
  · show size_add q.num_elements_ 1 = _
    rw [h.cnt]; unfold size_add; simp only [List.length_append, List.length_singleton]
    rw [size_mod_eq] at *; omega
  · intro i hi
    simp only [List.length_append, List.length_singleton] at hi
    show (q.store_.set (slot_index (2 ^ k) (fetch_add q.next_write_index_ 1).1) element)[(R + i) % 2 ^ k]? = _
    simp only [fetch_add, hidx]
    by_cases hlt : i < pending.length
    · rw [List.getElem?_set_ne (mod_ne_of_lt_of_lt hlt hlen).symm, h.slots i hlt,
        List.getElem_append_left hlt]
    · have hi2 : i = pending.length := by omega
      subst hi2
      rw [List.getElem?_set_self (by rw [h.len]; exact Nat.mod_lt _ (by positivity))]
      simp

end Common

namespace Common

variable {T : Type} {N : Nat}

/-! ## Sequences of calls -/

theorem front_fuel_irrelevant [Inhabited T] (fuel : Nat) (q : LFQueue T N) :
    q.front fuel = q.front 0 := by
  rcases Nat.eq_zero_or_pos q.num_elements_ with h | h
  · rw [front_of_empty fuel q h, front_of_empty 0 q h]
  · rw [front_of_nonempty fuel q h, front_of_nonempty 0 q h]

theorem not_full_lt {k : Nat} (hk4 : 4 ≤ k) (hk : k < 64) {q : LFQueue T (2 ^ k)}
    (h : q.full = false) : q.num_elements_ < 2 ^ k - 10 := by
  have h16 : 2 ^ 4 ≤ 2 ^ k := Nat.pow_le_pow_right (by norm_num) hk4
  have hs := size_sub_ten (n := 2 ^ k) (by omega) (pow_lt_size_mod hk)
  simp only [LFQueue.full, decide_eq_false_iff_not, hs] at h
  omega

theorem run_holds [Inhabited T] {k : Nat} (hk4 : 4 ≤ k) (hk : k < 64) (fuel : Nat) :
    ∀ (ops : List (Op T)) (q : LFQueue T (2 ^ k)) (pending : List T) (R : Nat),
      Holds q pending R → pushes_when_not_full ops q = true →
      ∃ q1 rs pending1, run fuel ops q = some (q1, rs) ∧
        Holds q1 pending1 (R + (returned rs).length) ∧
        pending ++ pushed ops = returned rs ++ pending1 := by
  intro ops
  induction ops with
  | nil =>
    intro q pending R h _
    exact ⟨q, [], pending, rfl, by simpa [returned] using h, by simp [pushed, returned]⟩
  | cons op ops ih =>
    intro q pending R h hadm
    cases op with
    | push element =>
      simp only [pushes_when_not_full, Bool.and_eq_true, Bool.not_eq_true'] at hadm
      have hlt := not_full_lt hk4 hk hadm.1
      rw [h.cnt] at hlt
      obtain ⟨q1, rs, pending1, hrun, hq1, heq⟩ :=
        ih (q.push_body element) (pending ++ [element]) R (holds_push hk h (by omega) element) hadm.2
      refine ⟨q1, rs, pending1, ?_, hq1, ?_⟩
      · simp only [run, push_of_not_full fuel q element hadm.1]
        exact hrun
      · simpa [pushed] using heq
    | front =>
      cases pending with
      | nil =>
        have hc : q.num_elements_ = 0 := by rw [h.cnt]; rfl
        simp only [pushes_when_not_full, front_of_empty 0 q hc] at hadm
        obtain ⟨q1, rs, pending1, hrun, hq1, heq⟩ := ih q [] R h hadm
        refine ⟨q1, none :: rs, pending1, ?_, ?_, ?_⟩
        · simp only [run, front_of_empty fuel q hc, hrun]
        · simpa [returned] using hq1
        · simpa [pushed, returned] using heq
      | cons x rest =>
        obtain ⟨q0, hf, hq0⟩ := holds_front hk fuel h
        have hf0 : q.front 0 = some (some x, q0) := by rw [← front_fuel_irrelevant fuel q, hf]
        simp only [pushes_when_not_full, hf0] at hadm
        obtain ⟨q1, rs, pending1, hrun, hq1, heq⟩ := ih q0 rest (R + 1) hq0 hadm
        refine ⟨q1, some x :: rs, pending1, ?_, ?_, ?_⟩
        · simp only [run, hf, hrun]
        · have e : R + (returned (some x :: rs)).length = R + 1 + (returned rs).length := by
            simp [returned, List.reduceOption_cons_of_some]; omega
          rw [e]; exact hq1
        · simp only [pushed, returned, List.reduceOption_cons_of_some, List.cons_append]
          simp only [returned] at heq
          rw [heq]

/-- C1. Strict FIFO in sequential use.  For every capacity `2 ^ k` with `16 ≤ 2 ^ k < 2 ^ 64`
and every sequence of `push` and `front` calls executed one at a time on a fresh queue, each
`push` issued only when `full()` is false: every call returns; the elements returned by the
`front` calls are, in order, the first elements pushed; and the next `front` call returns the
empty result exactly when every pushed element has already been returned, and otherwise
returns the pushed element whose position is the number of elements returned before. -/
theorem lfqueue_sequential_fifo [Inhabited T] (k : Nat) (hk4 : 4 ≤ k) (hk : k < 64) (fuel : Nat)
    (ops : List (Op T)) (h : pushes_when_not_full ops (LFQueue.new T (2 ^ k)) = true) :
    ∃ q rs r q1, run fuel ops (LFQueue.new T (2 ^ k)) = some (q, rs) ∧
      returned rs = (pushed ops).take (returned rs).length ∧
      q.front fuel = some (r, q1) ∧
      (r = none ↔ (returned rs).length = (pushed ops).length) ∧
      (∀ x, r = some x → (pushed ops)[(returned rs).length]? = some x) := by
  obtain ⟨q, rs, pending, hrun, hq, heq⟩ :=
    run_holds hk4 hk fuel ops (LFQueue.new T (2 ^ k)) [] 0 (holds_new _) h
  simp only [List.nil_append] at heq
  have htake : returned rs = (pushed ops).take (returned rs).length := by
    rw [heq]; simp
  cases pending with
  | nil =>
    have hc : q.num_elements_ = 0 := by rw [hq.cnt]; rfl
    refine ⟨q, rs, none, q, hrun, htake, front_of_empty fuel q hc, ?_, ?_⟩
    · simp [heq]
    · intro x hx; cases hx
  | cons x rest =>
    obtain ⟨q1, hf, _⟩ := holds_front hk fuel hq
    refine ⟨q, rs, some x, q1, hrun, htake, hf, ?_, ?_⟩
    · simp [heq]
    · intro y hy
      cases hy
      rw [heq, List.getElem?_append_right (le_refl _)]; simp

theorem lfqueue_sequential_fifo_witness :
    pushes_when_not_full wrap_ops (LFQueue.new Nat (2 ^ 4)) = true ∧
    ∃ q rs r q1, run 0 wrap_ops (LFQueue.new Nat (2 ^ 4)) = some (q, rs) ∧
      returned rs = (pushed wrap_ops).take (returned rs).length ∧
      q.front 0 = some (r, q1) ∧
      (r = none ↔ (returned rs).length = (pushed wrap_ops).length) ∧
      (∀ x, r = some x → (pushed wrap_ops)[(returned rs).length]? = some x) :=
  ⟨by decide!, lfqueue_sequential_fifo 4 (by decide) (by decide) 0 wrap_ops (by decide!)⟩

end Common

namespace Common

variable {T : Type} {N : Nat}

/-! ## Pushes without pops -/

theorem full_iff_pow {k : Nat} (hk4 : 4 ≤ k) (hk : k < 64) (q : LFQueue T (2 ^ k)) :
    q.full = true ↔ 2 ^ k - 10 ≤ q.num_elements_ := by
  have h16 : 2 ^ 4 ≤ 2 ^ k := Nat.pow_le_pow_right (by norm_num) hk4
  have hs := size_sub_ten (n := 2 ^ k) (by omega) (pow_lt_size_mod hk)
  simp [LFQueue.full, hs]

theorem run_pushes [Inhabited T] {k : Nat} (hk4 : 4 ≤ k) (hk : k < 64) (fuel : Nat) :
    ∀ (es : List T) (q : LFQueue T (2 ^ k)) (pending : List T) (R : Nat),
      Holds q pending R → pending.length + es.length ≤ 2 ^ k - 10 →
      ∃ q1, run fuel (es.map Op.push) q = some (q1, []) ∧ Holds q1 (pending ++ es) R := by
  intro es
  induction es with
  | nil =>
    intro q pending R h _
    exact ⟨q, rfl, by simpa using h⟩
  | cons e es ih =>
    intro q pending R h hlen
    simp only [List.length_cons] at hlen
    have h16 : 2 ^ 4 ≤ 2 ^ k := Nat.pow_le_pow_right (by norm_num) hk4
    have hnf : q.full = false := by
      rw [← Bool.not_eq_true, full_iff_pow hk4 hk, h.cnt]; omega
    obtain ⟨q1, hrun, hq1⟩ := ih (q.push_body e) (pending ++ [e]) R
      (holds_push hk h (by omega) e) (by simp; omega)
    refine ⟨q1, ?_, by simpa using hq1⟩
    simp only [List.map_cons, run, push_of_not_full fuel q e hnf]
    exact hrun

/-- C6. Fullness threshold.  For every capacity `2 ^ k` with `16 ≤ 2 ^ k < 2 ^ 64` and every
list `es` of at most `2 ^ k - 10` elements pushed on a fresh queue with no pops: every push
returns; afterwards `full()` is true exactly when `2 ^ k - 10` elements were pushed; and in
that full state a further `push` never leaves its spin loop, whatever the fuel, while after one
`front`, which returns the first element pushed, a `push` returns. -/
theorem lfqueue_full_threshold [Inhabited T] (k : Nat) (hk4 : 4 ≤ k) (hk : k < 64) (fuel : Nat)
    (es : List T) (hlen : es.length ≤ 2 ^ k - 10) (element : T) :
    ∃ q, run fuel (es.map Op.push) (LFQueue.new T (2 ^ k)) = some (q, []) ∧
      (q.full = true ↔ es.length = 2 ^ k - 10) ∧
      (q.full = true →
        (∀ fuel1, q.push fuel1 element = none) ∧
        ∃ x q1 q2, es.head? = some x ∧ q.front fuel = some (some x, q1) ∧
          q1.full = false ∧ q1.push fuel element = some q2) := by
  have h16 : 2 ^ 4 ≤ 2 ^ k := Nat.pow_le_pow_right (by norm_num) hk4
  obtain ⟨q, hrun, hq⟩ := run_pushes hk4 hk fuel es (LFQueue.new T (2 ^ k)) [] 0 (holds_new _)
    (by simpa using hlen)
  simp only [List.nil_append] at hq
  refine ⟨q, hrun, ?_, ?_⟩
  · rw [full_iff_pow hk4 hk, hq.cnt]; omega
  · intro hfull
    refine ⟨fun fuel1 => push_of_full fuel1 q element hfull, ?_⟩
    have hlen2 : 2 ^ k - 10 ≤ es.length := by
      rw [full_iff_pow hk4 hk, hq.cnt] at hfull; exact hfull
    cases es with
    | nil => simp at hlen2; omega
    | cons x rest =>
      obtain ⟨q1, hf, hq1⟩ := holds_front hk fuel hq
      have hnf : q1.full = false := by
        rw [← Bool.not_eq_true, full_iff_pow hk4 hk, hq1.cnt]
        simp only [List.length_cons] at hlen
        omega
      exact ⟨x, q1, q1.push_body element, rfl, hf, hnf, push_of_not_full fuel q1 element hnf⟩

theorem lfqueue_full_threshold_witness :
    (List.replicate 1014 (0 : Nat)).length ≤ 2 ^ 10 - 10 ∧
    ∃ q, run 0 ((List.replicate 1014 (0 : Nat)).map Op.push) (LFQueue.new Nat (2 ^ 10))
        = some (q, []) ∧
      (q.full = true ↔ (List.replicate 1014 (0 : Nat)).length = 2 ^ 10 - 10) ∧
      (q.full = true →
        (∀ fuel1, q.push fuel1 7 = none) ∧
        ∃ x q1 q2, (List.replicate 1014 (0 : Nat)).head? = some x ∧
          q.front 0 = some (some x, q1) ∧ q1.full = false ∧ q1.push 0 7 = some q2) :=
  ⟨by rw [List.length_replicate]; norm_num,
    lfqueue_full_threshold 10 (by decide) (by decide) 0 (List.replicate 1014 0)
      (by rw [List.length_replicate]; norm_num) 7⟩

end Common

namespace Common

variable {T : Type} {N : Nat}

/-! ## Counting -/

theorem not_full_succ_lt {q : LFQueue T N} (h : q.full = false) :
    q.num_elements_ + 1 < SIZE_MOD := by
  simp only [LFQueue.full, decide_eq_false_iff_not, Nat.not_le] at h
  have hlt : size_sub N 10 < SIZE_MOD := Nat.mod_lt _ (by unfold SIZE_MOD; positivity)
  omega

theorem run_counts [Inhabited T] (fuel : Nat) :
    ∀ (ops : List (Op T)) (q : LFQueue T N) (P R : Nat),
      q.next_write_index_ = P % SIZE_MOD → q.next_read_index_ = R % SIZE_MOD →
      q.num_elements_ + R = P → q.num_elements_ < SIZE_MOD →
      pushes_when_not_full ops q = true →
      ∃ q1 rs, run fuel ops q = some (q1, rs) ∧
        q1.next_write_index_ = (P + (pushed ops).length) % SIZE_MOD ∧
        q1.next_read_index_ = (R + (returned rs).length) % SIZE_MOD ∧
        q1.num_elements_ + (R + (returned rs).length) = P + (pushed ops).length ∧
        q1.num_elements_ < SIZE_MOD := by
  intro ops
  induction ops with
  | nil =>
    intro q P R hw hr hc hb _
    exact ⟨q, [], rfl, by simpa [pushed] using hw, by simpa [returned] using hr,
      by simpa [pushed, returned] using hc, hb⟩
  | cons op ops ih =>
    intro q P R hw hr hc hb hadm
    cases op with
    | push element =>
      simp only [pushes_when_not_full, Bool.and_eq_true, Bool.not_eq_true'] at hadm
      have hlt := not_full_succ_lt hadm.1
      have hc1 : (q.push_body element).num_elements_ = q.num_elements_ + 1 := by
        show size_add q.num_elements_ 1 = _
        unfold size_add; exact Nat.mod_eq_of_lt hlt
      have hw1 : (q.push_body element).next_write_index_ = (P + 1) % SIZE_MOD := by
        show size_add q.next_write_index_ 1 = _
        rw [hw]; unfold size_add; rw [size_mod_eq]; omega
      obtain ⟨q1, rs, hrun, h1, h2, h3, h4⟩ :=
        ih (q.push_body element) (P + 1) R hw1 hr (by rw [hc1]; omega)
          (by rw [hc1]; omega) hadm.2
      refine ⟨q1, rs, ?_, ?_, h2, ?_, h4⟩
      · simp only [run, push_of_not_full fuel q element hadm.1]
        exact hrun
      · rw [h1]; simp only [pushed, List.length_cons]; congr 1; omega
      · rw [h3]; simp only [pushed, List.length_cons]; omega
    | front =>
      rcases Nat.eq_zero_or_pos q.num_elements_ with h0 | hpos
      · simp only [pushes_when_not_full, front_of_empty 0 q h0] at hadm
        obtain ⟨q1, rs, hrun, h1, h2, h3, h4⟩ := ih q P R hw hr hc hb hadm
        refine ⟨q1, none :: rs, ?_, ?_, ?_, ?_, h4⟩
        · simp only [run, front_of_empty fuel q h0, hrun]
        · simpa [pushed] using h1
        · simpa [returned] using h2
        · simpa [pushed, returned] using h3
      · simp only [pushes_when_not_full, front_of_nonempty 0 q hpos] at hadm
        obtain ⟨q1, rs, hrun, h1, h2, h3, h4⟩ :=
          ih (LFQueue.mk q.store_ (size_add q.next_read_index_ 1) q.next_write_index_
              (q.num_elements_ - 1)) P (R + 1)
            (show q.next_write_index_ = _ from hw)
            (show size_add q.next_read_index_ 1 = _ by
              rw [hr]; unfold size_add; rw [size_mod_eq]; omega)
            (show q.num_elements_ - 1 + (R + 1) = P by omega)
            (show q.num_elements_ - 1 < SIZE_MOD by omega) hadm
        refine ⟨q1, some (q.store_.getD (slot_index N q.next_read_index_) default) :: rs,
          ?_, ?_, ?_, ?_, h4⟩
        · simp only [run, front_of_nonempty fuel q hpos, hrun]
        · simpa [pushed] using h1
        · rw [h2]; simp only [returned, List.reduceOption_cons_of_some, List.length_cons]
          congr 1; omega
        · simp only [pushed, returned, List.reduceOption_cons_of_some, List.length_cons]
          simp only [returned] at h3
          omega

theorem run_pushes_size [Inhabited T] (hN : N < SIZE_MOD) (fuel : Nat) :
    ∀ (es : List T) (q : LFQueue T N), q.num_elements_ + es.length ≤ N - 10 →
      ∃ q1, run fuel (es.map Op.push) q = some (q1, []) ∧
        q1.num_elements_ = q.num_elements_ + es.length := by
  intro es
  induction es with
  | nil => intro q _; exact ⟨q, rfl, rfl⟩
  | cons e es ih =>
    intro q h
    simp only [List.length_cons] at h
    have hs := size_sub_ten (n := N) (by omega) hN
    have hnf : q.full = false := by
      simp only [LFQueue.full, decide_eq_false_iff_not, hs]; omega
    have hc1 : (q.push_body e).num_elements_ = q.num_elements_ + 1 := by
      show size_add q.num_elements_ 1 = _
      unfold size_add; exact Nat.mod_eq_of_lt (by omega)
    obtain ⟨q1, hrun, hq1⟩ := ih (q.push_body e) (by rw [hc1]; omega)
    refine ⟨q1, ?_, by rw [hq1, hc1, List.length_cons]; omega⟩
    simp only [List.map_cons, run, push_of_not_full fuel q e hnf]
    exact hrun

/-- C7. Conservation.  For every capacity `N` and every sequence of `push` and `front` calls
executed one at a time on a fresh queue, each `push` issued only when `full()` is false: every
call returns, and afterwards `size()` equals the write cursor minus the read cursor (in
`size_t`) and equals the number of pushes minus the number of `front` calls that returned an
element.  In particular `P` pushes with no pops, `P ≤ N - 10`, all return and leave
`size() = P`. -/
theorem lfqueue_size_conservation [Inhabited T] (N : Nat) (fuel : Nat) :
    (∀ ops : List (Op T), pushes_when_not_full ops (LFQueue.new T N) = true →
      ∃ q rs, run fuel ops (LFQueue.new T N) = some (q, rs) ∧
        q.size = size_sub q.next_write_index_ q.next_read_index_ ∧
        (returned rs).length ≤ (pushed ops).length ∧
        q.size = (pushed ops).length - (returned rs).length) ∧
    (∀ es : List T, N < SIZE_MOD → es.length ≤ N - 10 →
      ∃ q, run fuel (es.map Op.push) (LFQueue.new T N) = some (q, []) ∧ q.size = es.length) := by
  refine ⟨fun ops hadm => ?_, fun es hN hlen => ?_⟩
  · obtain ⟨q, rs, hrun, h1, h2, h3, h4⟩ :=
      run_counts fuel ops (LFQueue.new T N) 0 0 rfl rfl rfl
        (by unfold SIZE_MOD; simp [LFQueue.new]) hadm
    refine ⟨q, rs, hrun, ?_, ?_, ?_⟩
    · unfold LFQueue.size size_sub
      rw [h1, h2]; rw [size_mod_eq] at *; omega
    · omega
    · unfold LFQueue.size; omega
  · obtain ⟨q, hrun, hq⟩ :=
      run_pushes_size hN fuel es (LFQueue.new T N) (by simpa [LFQueue.new] using hlen)
    exact ⟨q, hrun, by unfold LFQueue.size; rw [hq]; simp [LFQueue.new]⟩

theorem lfqueue_size_conservation_witness :
    (pushes_when_not_full wrap_ops (LFQueue.new Nat 16) = true ∧
      ∃ q rs, run 0 wrap_ops (LFQueue.new Nat 16) = some (q, rs) ∧
        q.size = size_sub q.next_write_index_ q.next_read_index_ ∧
        (returned rs).length ≤ (pushed wrap_ops).length ∧
        q.size = (pushed wrap_ops).length - (returned rs).length) ∧
    (16 < SIZE_MOD ∧ [3, 1, 4, 1, 5, 9].length ≤ 16 - 10 ∧
      ∃ q, run 0 ([3, 1, 4, 1, 5, 9].map Op.push) (LFQueue.new Nat 16) = some (q, []) ∧
        q.size = [3, 1, 4, 1, 5, 9].length) :=
  ⟨⟨by decide!, (lfqueue_size_conservation 16 0).1 wrap_ops (by decide!)⟩,
    ⟨by decide!, by decide, (lfqueue_size_conservation 16 0).2 [3, 1, 4, 1, 5, 9]
      (by decide!) (by decide)⟩⟩

/-! ## Single calls, indices, and the definition of `full` -/

/-- C5. Pop on an empty queue.  For every queue state whose count is `0`, `front` returns the
empty result without running the body of its loop (fuel `0` is enough, and so is any other
fuel) and leaves the whole state unchanged.  When the count is greater than `0`, `front`
returns a slot content, never the empty result: the slot at index `ri & (N - 1)` for the read
cursor `ri`, which is a slot of the storage when `N` is a power of two and the storage has `N`
slots; the count drops by one and the read cursor advances by one. -/
theorem lfqueue_front_on_empty [Inhabited T] (fuel : Nat) (q : LFQueue T N) :
    (q.num_elements_ = 0 →
      LFQueue.front_reserve 0 q.num_elements_ q.num_elements_ = some (0, 0) ∧
      q.front 0 = some (none, q) ∧ q.front fuel = some (none, q)) ∧
    (0 < q.num_elements_ →
      ∃ x q1, q.front fuel = some (some x, q1) ∧
        x = q.store_.getD (slot_index N q.next_read_index_) default ∧
        (∀ k, k < 64 → N = 2 ^ k → q.store_.length = N →
          q.store_[slot_index N q.next_read_index_]? = some x) ∧
        q1.num_elements_ = q.num_elements_ - 1 ∧
        q1.next_read_index_ = size_add q.next_read_index_ 1 ∧
        q1.next_write_index_ = q.next_write_index_ ∧ q1.store_ = q.store_) := by
  refine ⟨fun h0 => ⟨?_, front_of_empty 0 q h0, front_of_empty fuel q h0⟩, fun hpos => ?_⟩
  · rw [h0]; exact front_reserve_zero 0
  · refine ⟨_, _, front_of_nonempty fuel q hpos, rfl, ?_, rfl, rfl, rfl, rfl⟩
    intro k hk hN hlen
    subst hN
    have hlt : slot_index (2 ^ k) q.next_read_index_ < q.store_.length := by
      rw [slot_index_pow k _ hk, hlen]; exact Nat.mod_lt _ (by positivity)
    rw [List.getD_eq_getElem?_getD, List.getElem?_eq_getElem hlt]; rfl

theorem lfqueue_front_on_empty_witness :
    ((LFQueue.new Nat 16).num_elements_ = 0 ∧
      (LFQueue.new Nat 16).front 0 = some (none, LFQueue.new Nat 16)) ∧
    (0 < ((LFQueue.new Nat 16).push_body 7).num_elements_ ∧
      ∃ x q1, ((LFQueue.new Nat 16).push_body 7).front 0 = some (some x, q1) ∧
        x = ((LFQueue.new Nat 16).push_body 7).store_.getD
          (slot_index 16 ((LFQueue.new Nat 16).push_body 7).next_read_index_) default) :=
  ⟨⟨rfl, ((lfqueue_front_on_empty 0 (LFQueue.new Nat 16)).1 rfl).2.1⟩,
    ⟨by decide,
      match (lfqueue_front_on_empty 0 ((LFQueue.new Nat 16).push_body 7)).2 (by decide) with
      | ⟨x, q1, h1, h2, _⟩ => ⟨x, q1, h1, h2⟩⟩⟩

/-- C8. Capacity invariant.  For every capacity `2 ^ k` below `2 ^ 64` and every cursor value
`c`, the storage index `c & (N - 1)` equals `c mod N` and is below `N`.  The storage has `N`
slots at construction and `push` and `front` keep its length, so on a queue with `N` slots the
index written by `push` and the index read by `front` are indices of the storage. -/
theorem lfqueue_index_in_bounds [Inhabited T] (k : Nat) (hk : k < 64) (c : Nat)
    (q : LFQueue T (2 ^ k)) (element : T) (fuel : Nat) :
    slot_index (2 ^ k) c = c % 2 ^ k ∧ slot_index (2 ^ k) c < 2 ^ k ∧
    (LFQueue.new T (2 ^ k)).store_.length = 2 ^ k ∧
    (q.push_body element).store_.length = q.store_.length ∧
    (∀ r q1, q.front fuel = some (r, q1) → q1.store_ = q.store_) ∧
    (q.store_.length = 2 ^ k →
      slot_index (2 ^ k) (fetch_add q.next_write_index_ 1).1 < q.store_.length ∧
      slot_index (2 ^ k) (fetch_add q.next_read_index_ 1).1 < q.store_.length) := by
  have hlt : ∀ c, slot_index (2 ^ k) c < 2 ^ k := fun c => by
    rw [slot_index_pow k c hk]; exact Nat.mod_lt _ (by positivity)
  refine ⟨slot_index_pow k c hk, hlt c, by simp [LFQueue.new], by simp [LFQueue.push_body],
    ?_, fun hlen => ⟨by rw [hlen]; exact hlt _, by rw [hlen]; exact hlt _⟩⟩
  intro r q1 hf
  rcases Nat.eq_zero_or_pos q.num_elements_ with h0 | hpos
  · rw [front_of_empty fuel q h0] at hf
    cases hf; rfl
  · rw [front_of_nonempty fuel q hpos] at hf
    cases hf; rfl

theorem lfqueue_index_in_bounds_witness :
    slot_index (2 ^ 10) 18446744073709551615 = 18446744073709551615 % 2 ^ 10 ∧
    slot_index (2 ^ 10) 18446744073709551615 < 2 ^ 10 :=
  match lfqueue_index_in_bounds 10 (by decide) 18446744073709551615 (LFQueue.new Nat (2 ^ 10))
    0 0 with
  | ⟨h1, h2, _⟩ => ⟨h1, h2⟩

theorem full_iff_of_ten_le (hN10 : 10 ≤ N) (hN : N < SIZE_MOD) (q : LFQueue T N) :
    q.full = true ↔ (N : Int) - 10 ≤ (q.num_elements_ : Int) := by
  simp only [LFQueue.full, decide_eq_true_eq, size_sub_ten hN10 hN]
  omega

theorem full_iff_of_lt_ten (hN10 : N < 10) (q : LFQueue T N) :
    q.full = true ↔ SIZE_MOD - (10 - N) ≤ q.num_elements_ := by
  have hs : size_sub N 10 = SIZE_MOD - (10 - N) := by
    unfold size_sub; rw [size_mod_eq]; omega
  simp only [LFQueue.full, decide_eq_true_eq, hs]

/-- C10. Definition of `full` at a capacity below 10.  At `N = 8` and count `0`, `full()` is
false although `0 ≥ 8 - 10` over the integers: `N - 10` is computed in `size_t` and is
`2 ^ 64 - 2`.  Nine pushes on a fresh queue of 8 slots then all return, and the next `front`
returns the ninth element pushed, which has overwritten the first. -/
theorem lfqueue_full_small_capacity :
    (LFQueue.new Nat 8).full = false ∧
    (8 : Int) - 10 ≤ ((LFQueue.new Nat 8).num_elements_ : Int) ∧
    size_sub 8 10 = 2 ^ 64 - 2 ∧
    (run 0 ((List.range 9).map Op.push ++ [Op.front]) (LFQueue.new Nat 8)).map Prod.snd
      = some [some 8] := by
  refine ⟨by decide!, by decide, by decide!, by decide!⟩

end Common

namespace ThreadPool

open Common

variable {W U V A : Type} {N : Nat}

/-! ## The worker loop -/

theorem worker_wait_of_stop (fuel : Nat) (p : ThreadPool W N) (h : p.stop = true) :
    p.worker_wait fuel = some () := by
  cases fuel <;> simp [worker_wait, h]

theorem worker_iter_holds {k : Nat} (hk : k < 64) (fuel : Nat) {p : ThreadPool W (2 ^ k)}
    {x : Option (W → Option W)} {rest : List (Option (W → Option W))} {R : Nat}
    (h : Holds p.q (x :: rest) R) (w : W) :
    ∃ q1, p.worker_iter fuel w
        = some ({ stop := p.stop, q := q1 }, (x.elim (some w) fun g => g w), x) ∧
      Holds q1 rest (R + 1) := by
  obtain ⟨q1, hf, hq1⟩ := holds_front hk fuel h
  refine ⟨q1, ?_, hq1⟩
  cases x with
  | none => simp [worker_iter, hf]
  | some g => simp [worker_iter, hf]

theorem run_task_of_unset (id : Nat) (g : U → U × V) (w : World U V) (h : w.shared id = none) :
    run_task id g w = some (World.mk (g w.user).1
      (Function.update w.shared id (some (g w.user).2)) w.next) := by
  simp [run_task, h]

theorem run_task_of_set (id : Nat) (g : U → U × V) (w : World U V) (v : V)
    (h : w.shared id = some v) : run_task id g w = none := by
  simp [run_task, h]

theorem worker_iters_tasks {k : Nat} (hk : k < 64) (fuel : Nat) :
    ∀ (ts : List (Nat × (U → U × V))) (rest : List (Option (World U V → Option (World U V))))
      (p : ThreadPool (World U V) (2 ^ k)) (R : Nat) (w : World U V),
      Holds p.q ((task_calls ts).map some ++ rest) R → (ts.map Prod.fst).Nodup →
      (∀ t, t ∈ ts → w.shared t.1 = none) →
      ∃ q2 w2, p.worker_iters fuel ts.length w = some ({ stop := p.stop, q := q2 }, some w2) ∧
        Holds q2 rest (R + ts.length) ∧ run_all (task_calls ts) w = some w2 ∧
        (∀ i, i ∉ ts.map Prod.fst → w2.shared i = w.shared i) ∧ w2.next = w.next := by
  intro ts
  induction ts with
  | nil =>
    intro rest p R w h _ _
    exact ⟨p.q, w, rfl, by simpa [task_calls] using h, rfl, fun _ _ => rfl, rfl⟩
  | cons t ts ih =>
    intro rest p R w h hnd hnew
    simp only [List.map_cons, List.nodup_cons] at hnd
    have ht := run_task_of_unset t.1 t.2 w (hnew t (List.mem_cons_self _ _))
    have h0 : Holds p.q (some (run_task t.1 t.2) :: ((task_calls ts).map some ++ rest)) R := by
      simpa [task_calls] using h
    obtain ⟨q1, hit, hq1⟩ := worker_iter_holds hk fuel h0 w
    simp only [Option.elim, ht] at hit
    have hnew1 : ∀ t1, t1 ∈ ts → (World.mk (t.2 w.user).1
        (Function.update w.shared t.1 (some (t.2 w.user).2)) w.next).shared t1.1 = none := by
      intro t1 ht1
      have hne : t1.1 ≠ t.1 := fun e => hnd.1 (by rw [← e]; exact List.mem_map_of_mem _ ht1)
      show Function.update w.shared t.1 _ t1.1 = none
      rw [Function.update_noteq hne]
      exact hnew t1 (List.mem_cons_of_mem _ ht1)
    obtain ⟨q2, w2, hrun, hq2, hall, hframe, hnext⟩ :=
      ih rest { stop := p.stop, q := q1 } (R + 1) _ hq1 hnd.2 hnew1
    refine ⟨q2, w2, ?_, ?_, ?_, ?_, hnext⟩
    · simp only [List.length_cons, worker_iters, hit]
      exact hrun
    · have e : R + (t :: ts).length = R + 1 + ts.length := by
        simp only [List.length_cons]; omega
      rw [e]; exact hq2
    · simpa only [task_calls, List.map_cons, run_all, ht] using hall
    · intro i hi
      simp only [List.map_cons, List.mem_cons, not_or] at hi
      rw [hframe i hi.2]
      show Function.update w.shared t.1 _ i = _
      rw [Function.update_noteq hi.1]

theorem demo_pool_holds : Holds demo_pool.q (demo_tasks.map some) 0 :=
  holds_push (by decide) (holds_push (by decide) (holds_push (by decide) (holds_new _)
    (by decide) _) (by decide) _) (by decide) _

theorem demo_task_pool_holds (stop : Bool) :
    Holds (demo_task_pool stop).q ((task_calls demo_ts).map some) 0 :=
  holds_push (by decide) (holds_push (by decide) (holds_new _) (by decide) _) (by decide) _

/-- A pool of 8 slots on which nine calls of `enqueue` have returned (`full()` is never true at
this capacity) and `stop` is then set holds the ninth work item in slot 0 and counts nine
entries: the worker pops the ninth item first and once more at the end, and that second call
of the same `packaged_task` throws, so the worker does not return. -/
theorem worker_aborts_on_stale_copy :
    ((submit_all 0 demo_callable (List.range 9) (ThreadPool.new (World Nat Nat) 8)
        demo_world).bind (fun r => (r.1.request_stop.worker 20 r.2).map WorkerEnd.is_aborted))
      = some true := by
  decide!

/-! ## Submission -/

/-- C2. Rejected submission.  For every pool whose `stop` flag is set, every callable and
arguments and every fuel, `enqueue` throws the runtime error "enqueue on stopped ThreadPool"
and the pool after the call is the pool before it: storage, read cursor, write cursor and
count of the queue are unchanged. -/
theorem enqueue_on_stopped_pool (fuel : Nat) (p : ThreadPool (World U V) N) (w : World U V)
    (f : A → U → U × V) (args : A) (h : p.stop = true) :
    ∃ p1 w1, p.enqueue fuel w f args
        = some (p1, w1, Except.error "enqueue on stopped ThreadPool") ∧
      p1 = p ∧ p1.q.store_ = p.q.store_ ∧ p1.q.next_read_index_ = p.q.next_read_index_ ∧
      p1.q.next_write_index_ = p.q.next_write_index_ ∧
      p1.q.num_elements_ = p.q.num_elements_ ∧ w1.user = w.user := by
  refine ⟨p, World.mk w.user (Function.update w.shared w.next none) (w.next + 1), ?_,
    rfl, rfl, rfl, rfl, rfl, rfl⟩
  simp only [enqueue, h, if_true]

theorem enqueue_on_stopped_pool_witness :
    (ThreadPool.new (World Nat Nat) 1024).request_stop.stop = true ∧
    ∃ p1 w1, (ThreadPool.new (World Nat Nat) 1024).request_stop.enqueue 0 demo_world
        demo_callable 5 = some (p1, w1, Except.error "enqueue on stopped ThreadPool") ∧
      p1 = (ThreadPool.new (World Nat Nat) 1024).request_stop ∧
      p1.q.store_ = (ThreadPool.new (World Nat Nat) 1024).request_stop.q.store_ ∧
      p1.q.next_read_index_ = (ThreadPool.new (World Nat Nat) 1024).request_stop.q.next_read_index_ ∧
      p1.q.next_write_index_
        = (ThreadPool.new (World Nat Nat) 1024).request_stop.q.next_write_index_ ∧
      p1.q.num_elements_ = (ThreadPool.new (World Nat Nat) 1024).request_stop.q.num_elements_ ∧
      w1.user = demo_world.user :=
  ⟨rfl, enqueue_on_stopped_pool 0 _ demo_world demo_callable 5 rfl⟩


/-- C4. Submission result fidelity.  For every pool of capacity `2 ^ k` below `2 ^ 64` whose
`stop` flag is clear and whose queue reports not full and holds the work items of the tasks
`ts` submitted before (at most as many as the queue has slots, pairwise distinct, none run so
far): `enqueue(f, args)` returns a future whose shared state holds no value.  When the queue
has a free slot, which it has at every capacity from 16 on, it then holds the items of `ts`
followed by the new work item, again a state of this kind, and `n = ts.length` entries are
popped before the new one; when it has none (a capacity below 16, where `full()` never reports
full) the new item has replaced the oldest one and `n = 0`.  While a worker pops and calls
those `n` entries no call throws and the shared state of the future still holds no value; the
next round of the worker pops the new work item and calls it, and after that call the shared
state of the future holds exactly the value that `f(args)` returned in it. -/
theorem enqueue_result_fidelity (k : Nat) (hk : k < 64) (fuel : Nat)
    (p : ThreadPool (World U V) (2 ^ k)) (w : World U V) (f : A → U → U × V) (args : A)
    (ts : List (Nat × (U → U × V))) (R : Nat)
    (hstop : p.stop = false) (hq : Holds p.q ((task_calls ts).map some) R)
    (hfull : p.q.full = false) (hlen : ts.length ≤ 2 ^ k)
    (hids : (ts.map Prod.fst).Nodup) (hnew : ∀ t, t ∈ ts → w.shared t.1 = none)
    (hold : ∀ t, t ∈ ts → t.1 < w.next) :
    ∃ p1 w1 fut, p.enqueue fuel w f args = some (p1, w1, Except.ok fut) ∧
      w1.shared fut = none ∧ w1.user = w.user ∧
      (4 ≤ k → ts.length < 2 ^ k) ∧
      (ts.length < 2 ^ k →
        Holds p1.q ((task_calls (ts ++ [(fut, bind f args)])).map some) R) ∧
      ((ts ++ [(fut, bind f args)]).map Prod.fst).Nodup ∧
      (∀ t, t ∈ ts ++ [(fut, bind f args)] → w1.shared t.1 = none ∧ t.1 < w1.next) ∧
      (∀ n, n ≤ (if ts.length < 2 ^ k then ts.length else 0) →
        ∃ pn wn, p1.worker_iters fuel n w1 = some (pn, some wn) ∧ wn.shared fut = none) ∧
      ∃ p2 w2 p3 w3,
        p1.worker_iters fuel (if ts.length < 2 ^ k then ts.length else 0) w1
          = some (p2, some w2) ∧
        p2.worker_iter fuel w2 = some (p3, some w3, some (run_task fut (bind f args))) ∧
        w3.shared fut = some (f args w2.user).2 ∧ w3.user = (f args w2.user).1 := by
  have hcnt : p.q.num_elements_ = ts.length := by rw [hq.cnt]; simp [task_calls]
  have hk4 : 4 ≤ k → ts.length < 2 ^ k := by
    intro hk4
    have := not_full_lt hk4 hk hfull
    omega
  have hfresh : ∀ t, t ∈ ts → t.1 ≠ w.next := fun t ht => Nat.ne_of_lt (hold t ht)
  have hw1 : (World.mk w.user (Function.update w.shared w.next none) (w.next + 1)).shared w.next
      = none := by
    show Function.update w.shared w.next none w.next = none
    simp
  have hnew1 : ∀ t, t ∈ ts →
      (World.mk w.user (Function.update w.shared w.next none) (w.next + 1)).shared t.1 = none := by
    intro t ht
    show Function.update w.shared w.next none t.1 = none
    rw [Function.update_noteq (hfresh t ht)]
    exact hnew t ht
  have hnotin : w.next ∉ ts.map Prod.fst := by
    intro hmem
    obtain ⟨t, ht, e⟩ := List.mem_map.mp hmem
    exact hfresh t ht e
  have hnd1 : ((ts ++ [(w.next, bind f args)]).map Prod.fst).Nodup := by
    rw [List.map_append, List.nodup_append]
    refine ⟨hids, by simp, ?_⟩
    intro a ha hb
    simp only [List.map_cons, List.map_nil, List.mem_singleton] at hb
    subst hb
    exact hnotin ha
  have hall1 : ∀ t, t ∈ ts ++ [(w.next, bind f args)] →
      (World.mk w.user (Function.update w.shared w.next none) (w.next + 1)).shared t.1 = none ∧
      t.1 < w.next + 1 := by
    intro t ht
    rcases List.mem_append.mp ht with h1 | h1
    · exact ⟨hnew1 t h1, Nat.lt_succ_of_lt (hold t h1)⟩
    · simp only [List.mem_singleton] at h1
      subst h1
      exact ⟨hw1, Nat.lt_succ_self _⟩
  have henq : p.enqueue fuel w f args
      = some (ThreadPool.mk p.stop (p.q.push_body (some (run_task w.next (bind f args)))),
          World.mk w.user (Function.update w.shared w.next none) (w.next + 1),
          Except.ok w.next) := by
    simp only [enqueue, hstop, push_of_not_full fuel p.q _ hfull]
    rfl
  have hlast : ∀ (w2 : World U V), w2.shared w.next = none →
      (World.mk (bind f args w2.user).1
        (Function.update w2.shared w.next (some (bind f args w2.user).2)) w2.next).shared w.next
        = some (f args w2.user).2 := by
    intro w2 _
    show Function.update w2.shared w.next (some (bind f args w2.user).2) w.next = _
    simp [bind]
  by_cases hlt : ts.length < 2 ^ k
  · have hq1 := holds_push hk hq (by simpa [task_calls] using hlt)
      (some (run_task w.next (bind f args)))
    have hprefix : ∀ n, n ≤ ts.length →
        ∃ q2 wn, (ThreadPool.mk p.stop
            (p.q.push_body (some (run_task w.next (bind f args))))).worker_iters
            fuel n (World.mk w.user (Function.update w.shared w.next none) (w.next + 1))
            = some (ThreadPool.mk p.stop q2, some wn) ∧ wn.shared w.next = none ∧
          Holds q2 ((task_calls (ts.drop n)).map some ++ [some (run_task w.next (bind f args))])
            (R + n) := by
      intro n hn
      have hsplit : (task_calls ts).map some ++ [some (run_task w.next (bind f args))]
          = (task_calls (ts.take n)).map some ++ ((task_calls (ts.drop n)).map some
            ++ [some (run_task w.next (bind f args))]) := by
        rw [← List.append_assoc, ← List.map_append]
        simp only [task_calls]
        rw [← List.map_append, List.take_append_drop]
      have hndt : ((ts.take n).map Prod.fst).Nodup :=
        hids.sublist ((List.take_sublist n ts).map Prod.fst)
      obtain ⟨q2, wn, hrun, hq2, _, hframe, _⟩ :=
        worker_iters_tasks hk fuel (ts.take n) _
          (ThreadPool.mk p.stop (p.q.push_body (some (run_task w.next (bind f args))))) R
          (World.mk w.user (Function.update w.shared w.next none) (w.next + 1))
          (by rw [← hsplit]; exact hq1) hndt
          (fun t ht => hnew1 t (List.mem_of_mem_take ht))
      have hl : (ts.take n).length = n := by rw [List.length_take]; omega
      rw [hl] at hrun hq2
      refine ⟨q2, wn, hrun, ?_, hq2⟩
      rw [hframe w.next (fun hmem => hnotin
        ((List.take_sublist n ts).map Prod.fst |>.subset hmem))]
      exact hw1
    obtain ⟨q2, w2, hiters, hw2, hq2⟩ := hprefix ts.length (le_refl _)
    rw [List.drop_length] at hq2
    have hq2c : Holds (ThreadPool.mk p.stop q2).q [some (run_task w.next (bind f args))]
        (R + ts.length) := by
      simpa [task_calls] using hq2
    obtain ⟨q3, hiter, _⟩ := worker_iter_holds hk fuel hq2c w2
    simp only [Option.elim, run_task_of_unset w.next (bind f args) w2 hw2] at hiter
    simp only [if_pos hlt]
    refine ⟨ThreadPool.mk p.stop (p.q.push_body (some (run_task w.next (bind f args)))),
      World.mk w.user (Function.update w.shared w.next none) (w.next + 1), w.next,
      henq, hw1, rfl, hk4, fun _ => by simpa [task_calls] using hq1, hnd1, hall1, ?_,
      ThreadPool.mk p.stop q2, w2, ThreadPool.mk p.stop q3, _, hiters, hiter, hlast w2 hw2, rfl⟩
    intro n hn
    obtain ⟨q, wn, h1, h2, _⟩ := hprefix n hn
    exact ⟨_, wn, h1, h2⟩
  · have hfullq : ts.length = 2 ^ k := by omega
    have hpos : 0 < (p.q.push_body (some (run_task w.next (bind f args)))).num_elements_ := by
      show 0 < size_add p.q.num_elements_ 1
      have := not_full_succ_lt hfull
      unfold size_add
      rw [Nat.mod_eq_of_lt this]
      omega
    have hf := front_of_nonempty fuel
      (p.q.push_body (some (run_task w.next (bind f args)))) hpos
    have hidx : slot_index (2 ^ k) p.q.next_write_index_
        = slot_index (2 ^ k) p.q.next_read_index_ := by
      rw [hq.wr, hq.rd, slot_index_wrapped k _ hk, slot_index_wrapped k _ hk]
      have e : ((task_calls ts).map some).length = 2 ^ k := by simp [task_calls, hfullq]
      rw [e, Nat.add_mod_right]
    have hget : (p.q.push_body (some (run_task w.next (bind f args)))).store_.getD
        (slot_index (2 ^ k) (p.q.push_body (some (run_task w.next (bind f args)))).next_read_index_)
        default = some (run_task w.next (bind f args)) := by
      show (p.q.store_.set (slot_index (2 ^ k) p.q.next_write_index_) _).getD
        (slot_index (2 ^ k) p.q.next_read_index_) default = _
      rw [hidx, List.getD_eq_getElem?_getD, List.getElem?_set_self (by
        rw [hq.len, slot_index_pow k _ hk]; exact Nat.mod_lt _ (by positivity))]
      rfl
    rw [hget] at hf
    have hiter : (ThreadPool.mk p.stop
        (p.q.push_body (some (run_task w.next (bind f args))))).worker_iter fuel
        (World.mk w.user (Function.update w.shared w.next none) (w.next + 1))
        = some (ThreadPool.mk p.stop (LFQueue.mk
            (p.q.push_body (some (run_task w.next (bind f args)))).store_
            (size_add (p.q.push_body (some (run_task w.next (bind f args)))).next_read_index_ 1)
            (p.q.push_body (some (run_task w.next (bind f args)))).next_write_index_
            ((p.q.push_body (some (run_task w.next (bind f args)))).num_elements_ - 1)),
          some (World.mk (bind f args w.user).1
            (Function.update (Function.update w.shared w.next none) w.next
              (some (bind f args w.user).2)) (w.next + 1)),
          some (run_task w.next (bind f args))) := by
      simp only [worker_iter, hf]
      rw [run_task_of_unset w.next (bind f args) _ hw1]
    simp only [if_neg hlt]
    refine ⟨ThreadPool.mk p.stop (p.q.push_body (some (run_task w.next (bind f args)))),
      World.mk w.user (Function.update w.shared w.next none) (w.next + 1), w.next,
      henq, hw1, rfl, hk4, fun h => absurd h hlt, hnd1, hall1, ?_,
      _, _, _, _, rfl, hiter, ?_, rfl⟩
    · intro n hn
      have hn0 : n = 0 := by omega
      subst hn0
      exact ⟨_, _, rfl, hw1⟩
    · show Function.update (Function.update w.shared w.next none) w.next
        (some (bind f args w.user).2) w.next = _
      simp [bind]

theorem enqueue_result_fidelity_witness :
    (demo_task_pool false).stop = false ∧
    Holds (demo_task_pool false).q ((task_calls demo_ts).map some) 0 ∧
    (demo_task_pool false).q.full = false ∧ demo_ts.length ≤ 2 ^ 4 ∧
    (demo_ts.map Prod.fst).Nodup ∧
    (∀ t, t ∈ demo_ts → demo_task_world.shared t.1 = none) ∧
    (∀ t, t ∈ demo_ts → t.1 < demo_task_world.next) ∧
    ∃ p1 w1 fut, (demo_task_pool false).enqueue 0 demo_task_world demo_callable 9
        = some (p1, w1, Except.ok fut) ∧
      w1.shared fut = none ∧ w1.user = demo_task_world.user ∧
      (4 ≤ 4 → demo_ts.length < 2 ^ 4) ∧
      (demo_ts.length < 2 ^ 4 →
        Holds p1.q ((task_calls (demo_ts ++ [(fut, bind demo_callable 9)])).map some) 0) ∧
      ((demo_ts ++ [(fut, bind demo_callable 9)]).map Prod.fst).Nodup ∧
      (∀ t, t ∈ demo_ts ++ [(fut, bind demo_callable 9)] →
        w1.shared t.1 = none ∧ t.1 < w1.next) ∧
      (∀ n, n ≤ (if demo_ts.length < 2 ^ 4 then demo_ts.length else 0) →
        ∃ pn wn, p1.worker_iters 0 n w1 = some (pn, some wn) ∧ wn.shared fut = none) ∧
      ∃ p2 w2 p3 w3,
        p1.worker_iters 0 (if demo_ts.length < 2 ^ 4 then demo_ts.length else 0) w1
          = some (p2, some w2) ∧
        p2.worker_iter 0 w2 = some (p3, some w3, some (run_task fut (bind demo_callable 9))) ∧
        w3.shared fut = some (demo_callable 9 w2.user).2 ∧
        w3.user = (demo_callable 9 w2.user).1 :=
  ⟨rfl, demo_task_pool_holds false, by decide!, by decide, by decide,
    fun _ _ => rfl, by decide,
    enqueue_result_fidelity 4 (by decide) 0 (demo_task_pool false) demo_task_world
      demo_callable 9 demo_ts 0 rfl (demo_task_pool_holds false) (by decide!)
      (by decide) (by decide) (fun _ _ => rfl) (by decide)⟩

end ThreadPool


namespace Concurrent

open Common

variable {N : Nat}

/-! ## Counting lemmas -/

theorem count_true_update (p : Nat → Bool) (t : Nat) (b : Bool) :
    ∀ n, t < n → count_true (Function.update p t b) n + (if p t then 1 else 0)
      = count_true p n + (if b then 1 else 0) := by
  have hge : ∀ n, n ≤ t → count_true (Function.update p t b) n = count_true p n := by
    intro n
    induction n with
    | zero => intro _; rfl
    | succ n ih =>
      intro hn
      have hne : n ≠ t := by omega
      simp only [count_true, ih (by omega), Function.update_noteq hne]
  intro n
  induction n with
  | zero => intro h; omega
  | succ n ih =>
    intro hn
    by_cases hnt : n = t
    · subst hnt
      simp only [count_true, hge n (le_refl n), Function.update_same]
      omega
    · have hlt : t < n := by omega
      have := ih hlt
      simp only [count_true, Function.update_noteq hnt]
      omega

theorem count_true_all (p : Nat → Bool) : ∀ n, (∀ i, i < n → p i = true) → count_true p n = n := by
  intro n
  induction n with
  | zero => intro _; rfl
  | succ n ih =>
    intro h
    simp only [count_true, ih (fun i hi => h i (by omega)), h n (by omega), if_true]

theorem count_true_none (p : Nat → Bool) :
    ∀ n, (∀ i, i < n → p i = false) → count_true p n = 0 := by
  intro n
  induction n with
  | zero => intro _; rfl
  | succ n ih =>
    intro h
    simp [count_true, ih (fun i hi => h i (by omega)), h n (by omega)]

theorem pc_count_update (ws : Nat → Worker) (t : Nat) (wk : Worker) (c : WorkerPc) (nw : Nat)
    (ht : t < nw) :
    pc_count (Function.update ws t wk) c nw + (if (ws t).pc = c then 1 else 0)
      = pc_count ws c nw + (if wk.pc = c then 1 else 0) := by
  have e : (fun t1 => decide (((Function.update ws t wk) t1).pc = c))
      = Function.update (fun t1 => decide ((ws t1).pc = c)) t (decide (wk.pc = c)) := by
    funext t1
    by_cases h : t1 = t
    · subst h; simp
    · simp [Function.update_noteq h]
  unfold pc_count
  rw [e]
  have := count_true_update (fun t1 => decide ((ws t1).pc = c)) t (decide (wk.pc = c)) nw ht
  simpa using this

theorem pc_count_keep (ws : Nat → Worker) (t : Nat) (wk : Worker) (c : WorkerPc) (nw : Nat)
    (ht : t < nw) (h1 : (ws t).pc ≠ c) (h2 : wk.pc ≠ c) :
    pc_count (Function.update ws t wk) c nw = pc_count ws c nw := by
  have := pc_count_update ws t wk c nw ht
  simpa [h1, h2] using this

end Concurrent

namespace Concurrent

open Common

variable {N : Nat}

/-! ## Steps keep the invariant -/

theorem inv_submitter_step {k nw M : Nat} (hk : k < 64) (hM : M ≤ 2 ^ k) {s : Sys (2 ^ k)}
    (h : Inv nw M s) : Inv nw M (submitter_step M s) := by
  have hN : 2 ^ k < 18446744073709551616 := by
    have := pow_lt_size_mod hk
    rwa [size_mod_eq] at this
  obtain ⟨⟨hstop, hlen, hjle, hjlt, hwr, hidx, hslots⟩, hclaims, hbal, htally, hruns⟩ := h
  cases hpc : s.sub.pc with
  | check_stop =>
    simp only [submitter_step, hpc]
    simp only [hpc] at hwr hslots
    split
    · next hj =>
      split
      · next hs => rw [hstop] at hs; cases hs
      · exact ⟨⟨hstop, hlen, hjle, fun _ => hj, by simpa using hwr, by simp,
          by simpa using hslots⟩, hclaims, hbal, htally, hruns⟩
    · exact ⟨⟨hstop, hlen, hjle, hjlt, by simpa [hpc] using hwr, hidx, by simpa [hpc] using hslots⟩,
        hclaims, hbal, htally, hruns⟩
  | spin_full =>
    have hj := hjlt (Or.inl hpc)
    simp only [submitter_step, hpc]
    simp only [hpc] at hwr hslots
    split
    · exact ⟨⟨hstop, hlen, hjle, hjlt, by simpa [hpc] using hwr, hidx, by simpa [hpc] using hslots⟩,
        hclaims, hbal, htally, hruns⟩
    · exact ⟨⟨hstop, hlen, hjle, fun _ => hj, by simpa using hwr, by simp,
        by simpa using hslots⟩, hclaims, hbal, htally, hruns⟩
  | fetch =>
    have hj := hjlt (Or.inr (Or.inl hpc))
    simp only [submitter_step, hpc]
    simp only [hpc] at hwr hslots
    simp only [reduceCtorEq, or_self, if_false, Nat.add_zero] at hwr hslots
    refine ⟨⟨hstop, hlen, hjle, fun _ => hj, ?_, ?_, by simpa using hslots⟩,
      hclaims, hbal, htally, hruns⟩
    · simp only [fetch_add, size_add, size_mod_eq, hwr]
      simp only [true_or, if_true]
      omega
    · intro _
      simp only [fetch_add, hwr]
  | store =>
    have hj := hjlt (Or.inr (Or.inr (Or.inl hpc)))
    have hi := hidx (Or.inl hpc)
    simp only [submitter_step, hpc]
    simp only [hpc] at hwr hslots
    simp only [reduceCtorEq, if_false, Nat.add_zero] at hslots
    have hslot : slot_index (2 ^ k) s.sub.idx = s.sub.j := by
      rw [hi, slot_index_pow k _ hk]; exact Nat.mod_eq_of_lt (by omega)
    refine ⟨⟨hstop, by simp [hlen], hjle, fun _ => hj, by simpa using hwr, fun _ => hi, ?_⟩,
      hclaims, hbal, htally, hruns⟩
    intro i hi2
    simp only [if_true] at hi2
    simp only [hslot]
    by_cases hij : i = s.sub.j
    · subst hij
      rw [List.getElem?_set_self (by rw [hlen]; omega)]
    · rw [List.getElem?_set_ne (Ne.symm hij)]
      exact hslots i (by omega)
  | count =>
    have hj := hjlt (Or.inr (Or.inr (Or.inr hpc)))
    simp only [submitter_step, hpc]
    simp only [hpc] at hwr hslots
    simp only [or_true, if_true] at hwr hslots
    have hnum : (fetch_add s.q.num_elements_ 1).2 = s.q.num_elements_ + 1 := by
      simp only [fetch_add, size_add, size_mod_eq]
      omega
    refine ⟨⟨hstop, hlen, by simpa using hj, by simp, by simpa using hwr, by simp,
      by simpa using hslots⟩, hclaims, ?_, htally, hruns⟩
    simp only [hnum]
    omega
  | thrown =>
    simp only [submitter_step, hpc]
    exact ⟨⟨hstop, hlen, hjle, hjlt, hwr, hidx, hslots⟩, hclaims, hbal, htally, hruns⟩

end Concurrent

namespace Concurrent

open Common

variable {N : Nat}

theorem claimed_update (ws : Nat → Worker) (t : Nat) (wk : Worker) (t1 : Nat) :
    claimed ((Function.update ws t wk) t1) = if t1 = t then claimed wk else claimed (ws t1) := by
  by_cases h : t1 = t
  · subst h; simp
  · simp [Function.update_noteq h, h]

theorem claims_keep {nw : Nat} {ws : Nat → Worker} {ridx : Nat} {resolved : Nat → Bool}
    (h : Claims nw ws ridx resolved) (t : Nat) (wk : Worker) (ridx1 : Nat) (hr : ridx ≤ ridx1)
    (hc : claimed wk = none ∨ claimed wk = claimed (ws t))
    (hb : wk.pc = WorkerPc.incr ∨ wk.pc = WorkerPc.resolve → ∃ i, wk.f = some i) :
    Claims nw (Function.update ws t wk) ridx1 resolved := by
  have key : ∀ t1 i, claimed ((Function.update ws t wk) t1) = some i →
      claimed (ws t1) = some i ∨ (t1 = t ∧ claimed (ws t) = some i) := by
    intro t1 i hcl
    rw [claimed_update] at hcl
    by_cases e : t1 = t
    · rw [if_pos e] at hcl
      rcases hc with hc | hc
      · rw [hc] at hcl; cases hcl
      · right; exact ⟨e, by rw [← hc]; exact hcl⟩
    · rw [if_neg e] at hcl; left; exact hcl
  refine ⟨?_, ?_, fun i hi => Nat.lt_of_lt_of_le (h.res_lt i hi) hr, ?_⟩
  · intro t1 ht1 i hcl
    rcases key t1 i hcl with h1 | ⟨e, h1⟩
    · exact ⟨Nat.lt_of_lt_of_le (h.lt t1 ht1 i h1).1 hr, (h.lt t1 ht1 i h1).2⟩
    · subst e
      exact ⟨Nat.lt_of_lt_of_le (h.lt t1 ht1 i h1).1 hr, (h.lt t1 ht1 i h1).2⟩
  · intro t1 ht1 t2 ht2 i hcl1 hcl2
    have a1 : claimed (ws t1) = some i := by
      rcases key t1 i hcl1 with h1 | ⟨e, h1⟩
      · exact h1
      · rw [e]; exact h1
    have a2 : claimed (ws t2) = some i := by
      rcases key t2 i hcl2 with h1 | ⟨e, h1⟩
      · exact h1
      · rw [e]; exact h1
    exact h.inj t1 ht1 t2 ht2 i a1 a2
  · intro t1 ht1 hpc
    by_cases e : t1 = t
    · subst e
      simp only [Function.update_same] at hpc ⊢
      exact hb hpc
    · simp only [Function.update_noteq e] at hpc ⊢
      exact h.busy t1 ht1 hpc

theorem claims_fetch {nw : Nat} {ws : Nat → Worker} {ridx : Nat} {resolved : Nat → Bool}
    (h : Claims nw ws ridx resolved) (t : Nat) (wk : Worker)
    (hc : claimed wk = some ridx)
    (hb : wk.pc ≠ WorkerPc.incr ∧ wk.pc ≠ WorkerPc.resolve) :
    Claims nw (Function.update ws t wk) (ridx + 1) resolved := by
  have hfresh : resolved ridx = false := by
    cases hres : resolved ridx with
    | false => rfl
    | true => exact absurd (h.res_lt ridx hres) (Nat.lt_irrefl _)
  have key : ∀ t1, t1 < nw → ∀ i, claimed ((Function.update ws t wk) t1) = some i →
      (t1 = t ∧ i = ridx) ∨ (t1 ≠ t ∧ claimed (ws t1) = some i ∧ i < ridx) := by
    intro t1 ht1 i hcl
    rw [claimed_update] at hcl
    by_cases e : t1 = t
    · rw [if_pos e, hc] at hcl
      left; exact ⟨e, by cases hcl; rfl⟩
    · rw [if_neg e] at hcl
      right; exact ⟨e, hcl, (h.lt t1 ht1 i hcl).1⟩
  refine ⟨?_, ?_, fun i hi => Nat.lt_succ_of_lt (h.res_lt i hi), ?_⟩
  · intro t1 ht1 i hcl
    rcases key t1 ht1 i hcl with ⟨_, e⟩ | ⟨_, h1, h2⟩
    · subst e; exact ⟨Nat.lt_succ_self _, hfresh⟩
    · exact ⟨Nat.lt_succ_of_lt h2, (h.lt t1 ht1 i h1).2⟩
  · intro t1 ht1 t2 ht2 i hcl1 hcl2
    rcases key t1 ht1 i hcl1 with ⟨e1, e⟩ | ⟨_, h1, hl1⟩
    · rcases key t2 ht2 i hcl2 with ⟨e2, _⟩ | ⟨_, _, hl2⟩
      · rw [e1, e2]
      · omega
    · rcases key t2 ht2 i hcl2 with ⟨_, e⟩ | ⟨_, h2, _⟩
      · omega
      · exact h.inj t1 ht1 t2 ht2 i h1 h2
  · intro t1 ht1 hpc
    by_cases e : t1 = t
    · subst e
      simp only [Function.update_same] at hpc
      rcases hpc with hpc | hpc
      · exact absurd hpc hb.1
      · exact absurd hpc hb.2
    · simp only [Function.update_noteq e] at hpc ⊢
      exact h.busy t1 ht1 hpc

theorem claims_resolve {nw : Nat} {ws : Nat → Worker} {ridx : Nat} {resolved : Nat → Bool}
    (h : Claims nw ws ridx resolved) (t : Nat) (ht : t < nw) (wk : Worker) (i : Nat)
    (hi : claimed (ws t) = some i) (hc : claimed wk = none)
    (hb : wk.pc ≠ WorkerPc.incr ∧ wk.pc ≠ WorkerPc.resolve) :
    Claims nw (Function.update ws t wk) ridx (Function.update resolved i true) := by
  have key : ∀ t1, t1 < nw → ∀ i1, claimed ((Function.update ws t wk) t1) = some i1 →
      t1 ≠ t ∧ claimed (ws t1) = some i1 ∧ i1 ≠ i := by
    intro t1 ht1 i1 hcl
    rw [claimed_update] at hcl
    by_cases e : t1 = t
    · rw [if_pos e, hc] at hcl; cases hcl
    · rw [if_neg e] at hcl
      refine ⟨e, hcl, fun e2 => e ?_⟩
      subst e2
      exact h.inj t1 ht1 t ht i1 hcl hi
  refine ⟨?_, ?_, ?_, ?_⟩
  · intro t1 ht1 i1 hcl
    obtain ⟨_, h1, h2⟩ := key t1 ht1 i1 hcl
    exact ⟨(h.lt t1 ht1 i1 h1).1, by rw [Function.update_noteq h2]; exact (h.lt t1 ht1 i1 h1).2⟩
  · intro t1 ht1 t2 ht2 i1 hcl1 hcl2
    exact h.inj t1 ht1 t2 ht2 i1 (key t1 ht1 i1 hcl1).2.1 (key t2 ht2 i1 hcl2).2.1
  · intro i1 hres
    by_cases e : i1 = i
    · subst e; exact (h.lt t ht i1 hi).1
    · rw [Function.update_noteq e] at hres; exact h.res_lt i1 hres
  · intro t1 ht1 hpc
    by_cases e : t1 = t
    · subst e
      simp only [Function.update_same] at hpc
      rcases hpc with hpc | hpc
      · exact absurd hpc hb.1
      · exact absurd hpc hb.2
    · simp only [Function.update_noteq e] at hpc ⊢
      exact h.busy t1 ht1 hpc

end Concurrent

namespace Concurrent

open Common

variable {N : Nat}

theorem runs_keep {nw : Nat} {ws : Nat → Worker} {ridx : Nat} {resolved : Nat → Bool}
    {runs : Nat → Nat} (h : Runs nw ws ridx resolved runs) (t : Nat) (wk : Worker) (ridx1 : Nat)
    (hr : ridx ≤ ridx1)
    (hc : claimed wk = none ∨ (claimed wk = claimed (ws t) ∧
      (wk.pc = WorkerPc.resolve ↔ (ws t).pc = WorkerPc.resolve))) :
    Runs nw (Function.update ws t wk) ridx1 resolved runs := by
  refine ⟨h.ready, ?_, fun i hi => h.fresh i (Nat.le_trans hr hi)⟩
  intro t1 ht1 i hcl
  by_cases e : t1 = t
  · subst e
    simp only [Function.update_same] at hcl ⊢
    rcases hc with hc | ⟨hc1, hc2⟩
    · rw [hc] at hcl; cases hcl
    · rw [hc1] at hcl
      rw [h.held t1 ht1 i hcl]
      simp only [hc2]
  · simp only [Function.update_noteq e] at hcl ⊢
    exact h.held t1 ht1 i hcl

theorem runs_fetch {nw : Nat} {ws : Nat → Worker} {ridx : Nat} {resolved : Nat → Bool}
    {runs : Nat → Nat} (h : Runs nw ws ridx resolved runs) (t : Nat) (wk : Worker)
    (hc : claimed wk = some ridx) (hb : wk.pc ≠ WorkerPc.resolve) :
    Runs nw (Function.update ws t wk) (ridx + 1) resolved runs := by
  refine ⟨h.ready, ?_, fun i hi => h.fresh i (by omega)⟩
  intro t1 ht1 i hcl
  by_cases e : t1 = t
  · subst e
    simp only [Function.update_same] at hcl ⊢
    rw [hc] at hcl
    cases hcl
    rw [h.fresh ridx (le_refl _), if_neg hb]
  · simp only [Function.update_noteq e] at hcl ⊢
    exact h.held t1 ht1 i hcl

theorem runs_incr {nw : Nat} {ws : Nat → Worker} {ridx : Nat} {resolved : Nat → Bool}
    {runs : Nat → Nat} (h : Runs nw ws ridx resolved runs) (hcl : Claims nw ws ridx resolved)
    (t : Nat) (ht : t < nw) (wk : Worker) (i : Nat) (hi : claimed (ws t) = some i)
    (hpc : (ws t).pc = WorkerPc.incr) (hc : claimed wk = some i)
    (hb : wk.pc = WorkerPc.resolve) :
    Runs nw (Function.update ws t wk) ridx resolved (Function.update runs i (runs i + 1)) := by
  have h0 : runs i = 0 := by
    rw [h.held t ht i hi, hpc]; simp
  have hlt := hcl.lt t ht i hi
  refine ⟨?_, ?_, ?_⟩
  · intro i1 hres
    have e : i1 ≠ i := fun e => by rw [e, hlt.2] at hres; cases hres
    rw [Function.update_noteq e]; exact h.ready i1 hres
  · intro t1 ht1 i1 hcl1
    by_cases e : t1 = t
    · subst e
      simp only [Function.update_same] at hcl1 ⊢
      rw [hc] at hcl1
      cases hcl1
      simp [h0, hb]
    · simp only [Function.update_noteq e] at hcl1 ⊢
      have e2 : i1 ≠ i := fun e2 => e (by subst e2; exact hcl.inj t1 ht1 t ht i1 hcl1 hi)
      rw [Function.update_noteq e2]
      exact h.held t1 ht1 i1 hcl1
  · intro i1 hi1
    have e : i1 ≠ i := by omega
    rw [Function.update_noteq e]; exact h.fresh i1 hi1

theorem runs_resolve {nw : Nat} {ws : Nat → Worker} {ridx : Nat} {resolved : Nat → Bool}
    {runs : Nat → Nat} (h : Runs nw ws ridx resolved runs) (t : Nat) (ht : t < nw) (wk : Worker)
    (i : Nat) (hi : claimed (ws t) = some i) (hpc : (ws t).pc = WorkerPc.resolve)
    (hc : claimed wk = none) :
    Runs nw (Function.update ws t wk) ridx (Function.update resolved i true) runs := by
  refine ⟨?_, ?_, h.fresh⟩
  · intro i1 hres
    by_cases e : i1 = i
    · subst e
      rw [h.held t ht i1 hi, hpc]; simp
    · rw [Function.update_noteq e] at hres; exact h.ready i1 hres
  · intro t1 ht1 i1 hcl1
    by_cases e : t1 = t
    · subst e
      simp only [Function.update_same] at hcl1
      rw [hc] at hcl1; cases hcl1
    · simp only [Function.update_noteq e] at hcl1 ⊢
      exact h.held t1 ht1 i1 hcl1

theorem inv_worker_step {k nw M : Nat} (hk : k < 64) (hM : M ≤ 2 ^ k) {s : Sys (2 ^ k)}
    (h : Inv nw M s) (t : Nat) (ht : t < nw) : Inv nw M (worker_step s t (s.workers t)) := by
  have hN : 2 ^ k < 18446744073709551616 := by
    have := pow_lt_size_mod hk
    rwa [size_mod_eq] at this
  obtain ⟨hsub, hclaims, hbal, htally, hruns⟩ := h
  have hjle := hsub.j_le
  cases hpc : (s.workers t).pc with
  | spin =>
    have hcl : claimed (s.workers t) = none := by simp [claimed, hpc]
    simp only [worker_step, hpc]
    split
    · exact ⟨hsub, hclaims, hbal, htally, hruns⟩
    · refine ⟨hsub, claims_keep hclaims t _ _ (le_refl _) (Or.inl rfl) (by simp), ?_, ?_,
        runs_keep hruns t _ _ (le_refl _) (Or.inl rfl)⟩
      · rw [pc_count_keep _ _ _ _ _ ht (by simp [hpc]) (by simp)]; exact hbal
      · rw [pc_count_keep _ _ _ _ _ ht (by simp [hpc]) (by simp)]; exact htally
  | exit_check =>
    simp only [worker_step, hpc]
    split
    · refine ⟨hsub, claims_keep hclaims t _ _ (le_refl _) (Or.inl rfl) (by simp), ?_, ?_,
        runs_keep hruns t _ _ (le_refl _) (Or.inl rfl)⟩
      · rw [pc_count_keep _ _ _ _ _ ht (by simp [hpc]) (by simp)]; exact hbal
      · rw [pc_count_keep _ _ _ _ _ ht (by simp [hpc]) (by simp)]; exact htally
    · refine ⟨hsub, claims_keep hclaims t _ _ (le_refl _) (Or.inl rfl) (by simp), ?_, ?_,
        runs_keep hruns t _ _ (le_refl _) (Or.inl rfl)⟩
      · rw [pc_count_keep _ _ _ _ _ ht (by simp [hpc]) (by simp)]; exact hbal
      · rw [pc_count_keep _ _ _ _ _ ht (by simp [hpc]) (by simp)]; exact htally
  | load =>
    simp only [worker_step, hpc]
    refine ⟨hsub, claims_keep hclaims t _ _ (le_refl _) (Or.inl rfl) (by simp), ?_, ?_,
        runs_keep hruns t _ _ (le_refl _) (Or.inl rfl)⟩
    · rw [pc_count_keep _ _ _ _ _ ht (by simp [hpc]) (by simp)]; exact hbal
    · rw [pc_count_keep _ _ _ _ _ ht (by simp [hpc]) (by simp)]; exact htally
  | cas =>
    simp only [worker_step, hpc, compare_exchange_strong]
    split
    · next hpos =>
      by_cases hce : s.q.num_elements_ = (s.workers t).expected
      · simp only [hce, if_true]
        refine ⟨hsub, claims_keep hclaims t _ _ (le_refl _) (Or.inl rfl) (by simp), ?_, ?_,
        runs_keep hruns t _ _ (le_refl _) (Or.inl rfl)⟩
        · have := pc_count_update s.workers t
            { pc := WorkerPc.fetch, expected := (s.workers t).expected, ri := (s.workers t).ri,
              f := (s.workers t).f } WorkerPc.fetch nw ht
          simp only [hpc, reduceCtorEq, if_false, if_true, Nat.add_zero] at this
          show (s.workers t).expected - 1
            + pc_count (Function.update s.workers t _) WorkerPc.fetch nw
            + s.q.next_read_index_ = s.sub.j
          rw [this]; omega
        · rw [pc_count_keep _ _ _ _ _ ht (by simp [hpc]) (by simp)]; exact htally
      · simp only [hce, if_false]
        refine ⟨hsub, claims_keep hclaims t _ _ (le_refl _) (Or.inl ?_) (by simp [hpc]), ?_, ?_,
          runs_keep hruns t _ _ (le_refl _) (Or.inl ?_)⟩
        · simp [claimed, hpc]
        · rw [pc_count_keep _ _ _ _ _ ht (by simp [hpc]) (by simp [hpc])]; exact hbal
        · rw [pc_count_keep _ _ _ _ _ ht (by simp [hpc]) (by simp [hpc])]; exact htally
        · simp [claimed, hpc]
    · refine ⟨hsub, claims_keep hclaims t _ _ (le_refl _) (Or.inl rfl) (by simp), ?_, ?_,
        runs_keep hruns t _ _ (le_refl _) (Or.inl rfl)⟩
      · rw [pc_count_keep _ _ _ _ _ ht (by simp [hpc]) (by simp)]; exact hbal
      · rw [pc_count_keep _ _ _ _ _ ht (by simp [hpc]) (by simp)]; exact htally
  | fetch =>
    simp only [worker_step, hpc]
    have hcount := pc_count_update s.workers t
      { pc := WorkerPc.read, expected := (s.workers t).expected, ri := s.q.next_read_index_,
        f := (s.workers t).f } WorkerPc.fetch nw ht
    simp only [hpc, reduceCtorEq, if_false, if_true, Nat.add_zero] at hcount
    have hr : (fetch_add s.q.next_read_index_ 1).2 = s.q.next_read_index_ + 1 := by
      simp only [fetch_add, size_add, size_mod_eq]
      omega
    have hr1 : (fetch_add s.q.next_read_index_ 1).1 = s.q.next_read_index_ := rfl
    simp only [hr, hr1]
    refine ⟨hsub, claims_fetch hclaims t _ rfl (by simp), ?_, ?_,
      runs_fetch hruns t _ rfl (by simp)⟩
    · show s.q.num_elements_ + pc_count (Function.update s.workers t _) WorkerPc.fetch nw
        + (s.q.next_read_index_ + 1) = s.sub.j
      omega
    · rw [pc_count_keep _ _ _ _ _ ht (by simp [hpc]) (by simp)]; exact htally
  | read =>
    simp only [worker_step, hpc]
    have hcl : claimed (s.workers t) = some (s.workers t).ri := by simp [claimed, hpc]
    have hlt := (hclaims.lt t ht _ hcl).1
    have hslot : s.q.store_.getD (slot_index (2 ^ k) (s.workers t).ri) default
        = some (s.workers t).ri := by
      rw [slot_index_pow k _ hk, Nat.mod_eq_of_lt (by omega), List.getD_eq_getElem?_getD,
        hsub.slots _ (by omega)]
      rfl
    rw [hslot]
    refine ⟨hsub, claims_keep hclaims t _ _ (le_refl _) (Or.inr ?_) (by simp), ?_, ?_,
      runs_keep hruns t _ _ (le_refl _) (Or.inr ⟨?_, by simp [hpc]⟩)⟩
    · rw [hcl]; rfl
    · rw [pc_count_keep _ _ _ _ _ ht (by simp [hpc]) (by simp)]; exact hbal
    · rw [pc_count_keep _ _ _ _ _ ht (by simp [hpc]) (by simp)]; exact htally
    · rw [hcl]; rfl
  | call =>
    simp only [worker_step, hpc]
    have hcl : claimed (s.workers t) = (s.workers t).f := by simp [claimed, hpc]
    split
    · refine ⟨hsub, claims_keep hclaims t _ _ (le_refl _) (Or.inl rfl) (by simp), ?_, ?_,
        runs_keep hruns t _ _ (le_refl _) (Or.inl rfl)⟩
      · rw [pc_count_keep _ _ _ _ _ ht (by simp [hpc]) (by simp)]; exact hbal
      · rw [pc_count_keep _ _ _ _ _ ht (by simp [hpc]) (by simp)]; exact htally
    · next i hf =>
      refine ⟨hsub, claims_keep hclaims t _ _ (le_refl _) (Or.inr ?_) (fun _ => ⟨i, hf⟩), ?_, ?_,
        runs_keep hruns t _ _ (le_refl _) (Or.inr ⟨?_, by simp [hpc]⟩)⟩
      · rw [hcl]; rfl
      · rw [pc_count_keep _ _ _ _ _ ht (by simp [hpc]) (by simp)]; exact hbal
      · rw [pc_count_keep _ _ _ _ _ ht (by simp [hpc]) (by simp)]; exact htally
      · rw [hcl]; rfl
  | incr =>
    have hcl : claimed (s.workers t) = (s.workers t).f := by simp [claimed, hpc]
    obtain ⟨i, hf⟩ := hclaims.busy t ht (Or.inl hpc)
    rw [hf] at hcl
    simp only [worker_step, hpc, hf, Option.elim]
    have hcount := pc_count_update s.workers t
      { pc := WorkerPc.resolve, expected := (s.workers t).expected, ri := (s.workers t).ri,
        f := some i } WorkerPc.resolve nw ht
    simp only [hpc, reduceCtorEq, if_false, if_true, Nat.add_zero] at hcount
    refine ⟨hsub, claims_keep hclaims t _ _ (le_refl _) (Or.inr ?_) (fun _ => ⟨i, rfl⟩), ?_, ?_,
      runs_incr hruns hclaims t ht _ i hcl hpc rfl rfl⟩
    · rw [hcl]; rfl
    · rw [pc_count_keep _ _ _ _ _ ht (by simp [hpc]) (by simp)]; exact hbal
    · show s.counter + 1
        = count_true s.resolved M + pc_count (Function.update s.workers t _) WorkerPc.resolve nw
      rw [hcount, htally, Nat.add_assoc]
  | resolve =>
    simp only [worker_step, hpc]
    have hcl : claimed (s.workers t) = (s.workers t).f := by simp [claimed, hpc]
    obtain ⟨i, hf⟩ := hclaims.busy t ht (Or.inr hpc)
    rw [hf] at hcl
    have hi := hclaims.lt t ht i hcl
    simp only [hf]
    have hcount := pc_count_update s.workers t
      { pc := WorkerPc.spin, expected := (s.workers t).expected, ri := (s.workers t).ri,
        f := some i } WorkerPc.resolve nw ht
    simp only [hpc, reduceCtorEq, if_false, if_true, Nat.add_zero] at hcount
    have hres := count_true_update s.resolved i true M (by omega)
    simp only [hi.2, Bool.false_eq_true, if_false, if_true, Nat.add_zero] at hres
    refine ⟨hsub, claims_resolve hclaims t ht _ i hcl rfl (by simp), ?_, ?_,
      runs_resolve hruns t ht _ i hcl hpc rfl⟩
    · rw [pc_count_keep _ _ _ _ _ ht (by simp [hpc]) (by simp)]; exact hbal
    · show s.counter = count_true (Function.update s.resolved i true) M
        + pc_count (Function.update s.workers t _) WorkerPc.resolve nw
      rw [hres, htally]; omega
  | done =>
    simp only [worker_step, hpc]
    exact ⟨hsub, hclaims, hbal, htally, hruns⟩

end Concurrent

namespace Concurrent

open Common

variable {N : Nat}

/-! ## Every schedule -/

theorem inv_init (nw M N : Nat) : Inv nw M (init N) := by
  refine ⟨⟨rfl, by simp [init, LFQueue.new], Nat.zero_le _, ?_, rfl, ?_, ?_⟩,
    ⟨?_, ?_, ?_, ?_⟩, ?_, ?_, ⟨?_, ?_, ?_⟩⟩
  · intro h; simp [init] at h
  · intro h; simp [init] at h
  · intro i hi; simp [init] at hi
  · intro t _ i h; simp [init, claimed] at h
  · intro t _ t1 _ i h; simp [init, claimed] at h
  · intro i h; simp [init] at h
  · intro t _ h; simp [init] at h
  · show 0 + pc_count _ WorkerPc.fetch nw + 0 = 0
    have : pc_count (init N).workers WorkerPc.fetch nw = 0 :=
      count_true_none _ nw (fun i _ => by simp [init])
    simp only [this]
  · show 0 = count_true _ M + pc_count _ WorkerPc.resolve nw
    have h1 : pc_count (init N).workers WorkerPc.resolve nw = 0 :=
      count_true_none _ nw (fun i _ => by simp [init])
    have h2 : count_true (init N).resolved M = 0 :=
      count_true_none _ M (fun i _ => by simp [init])
    rw [h1, h2]
  · intro i h; simp [init] at h
  · intro t _ i h; simp [init, claimed] at h
  · intro i _; rfl

theorem inv_step {k nw M : Nat} (hk : k < 64) (hM : M ≤ 2 ^ k) {s : Sys (2 ^ k)}
    (h : Inv nw M s) (tid : Tid) : Inv nw M (step nw M s tid) := by
  cases tid with
  | submitter => exact inv_submitter_step hk hM h
  | worker t =>
    simp only [step]
    split
    · next ht => exact inv_worker_step hk hM h t ht
    · exact h

theorem inv_exec {k nw M : Nat} (hk : k < 64) (hM : M ≤ 2 ^ k) (sched : List Tid) :
    ∀ s : Sys (2 ^ k), Inv nw M s → Inv nw M (exec nw M sched s) := by
  induction sched with
  | nil => intro s h; exact h
  | cons tid sched ih =>
    intro s h
    exact ih _ (inv_step hk hM h tid)

theorem inv_all_resolved {nw M : Nat} {s : Sys N} (h : Inv nw M s)
    (hres : ∀ i, i < M → s.resolved i = true) :
    s.counter = M ∧ (∀ i, i < M → s.runs i = 1) ∧ ∀ t, t < nw → claimed (s.workers t) = none := by
  have hr : s.q.next_read_index_ ≤ M := by
    have := h.balance
    have := h.sub.j_le
    omega
  have hnone : ∀ t, t < nw → claimed (s.workers t) = none := by
    intro t ht
    cases hc : claimed (s.workers t) with
    | none => rfl
    | some i =>
      have hi := h.claims.lt t ht i hc
      rw [hres i (by omega)] at hi
      exact absurd hi.2 (by simp)
  refine ⟨?_, fun i hi => h.runs.ready i (hres i hi), hnone⟩
  have h1 : count_true s.resolved M = M := count_true_all _ M hres
  have h2 : pc_count s.workers WorkerPc.resolve nw = 0 := by
    apply count_true_none
    intro t ht
    simp only [decide_eq_false_iff_not]
    intro hpc
    obtain ⟨i, hf⟩ := h.claims.busy t ht (Or.inr hpc)
    have := hnone t ht
    simp [claimed, hpc, hf] at this
  rw [h.tally, h1, h2, Nat.add_zero]

/-- C9. Concurrency scenario.  For every pool of capacity `2 ^ k` below `2 ^ 64` with `nw`
worker threads, every number `M ≤ 2 ^ k` of tasks that each increment the shared counter by
one, and every schedule of the steps of the submitting thread and the workers: in a state
reached in which every one of the `M` futures is ready, the counter is exactly `M`, the body
of every task has run exactly once, and no worker holds a task.  With `nw = 4`, `M = 100` and
capacity `1024` this is the scenario of four workers and one hundred tasks. -/
theorem pool_counter_exact (k nw M : Nat) (hk : k < 64) (hM : M ≤ 2 ^ k) (sched : List Tid)
    (hres : ∀ i, i < M → (exec nw M sched (init (2 ^ k))).resolved i = true) :
    (exec nw M sched (init (2 ^ k))).counter = M ∧
    (∀ i, i < M → (exec nw M sched (init (2 ^ k))).runs i = 1) ∧
    ∀ t, t < nw → claimed ((exec nw M sched (init (2 ^ k))).workers t) = none :=
  inv_all_resolved (inv_exec hk hM sched _ (inv_init nw M _)) hres

theorem pool_counter_exact_witness :
    (∀ i, i < 100 → (exec 4 100 (serial_schedule 100) (init (2 ^ 10))).resolved i = true) ∧
    (exec 4 100 (serial_schedule 100) (init (2 ^ 10))).counter = 100 ∧
    (∀ i, i < 100 → (exec 4 100 (serial_schedule 100) (init (2 ^ 10))).runs i = 1) ∧
    ∀ t, t < 4 → claimed ((exec 4 100 (serial_schedule 100) (init (2 ^ 10))).workers t) = none :=
  ⟨by decide!, pool_counter_exact 10 4 100 (by decide) (by decide) (serial_schedule 100)
    (by decide!)⟩

end Concurrent

namespace Common

variable {T : Type} {N : Nat}

/-! ## Index continuity when a cursor overflows -/

theorem and_pow_pred_succ (w k c : Nat) (hk : k ≤ w) :
    ((c + 1) % 2 ^ w) &&& (2 ^ k - 1) = ((c &&& (2 ^ k - 1)) + 1) % 2 ^ k := by
  rw [Nat.and_pow_two_sub_one_eq_mod, Nat.and_pow_two_sub_one_eq_mod,
    Nat.mod_mod_of_dvd _ (pow_dvd_pow 2 hk)]
  exact (Nat.mod_add_mod c (2 ^ k) 1).symm

theorem pred_in_width (w k : Nat) (hk : k ≤ w) : (2 ^ k + 2 ^ w - 1) % 2 ^ w = 2 ^ k - 1 := by
  have h1 : 1 ≤ 2 ^ k := Nat.one_le_two_pow
  have h2 : 2 ^ k ≤ 2 ^ w := Nat.pow_le_pow_right (by norm_num) hk
  have e : 2 ^ k + 2 ^ w - 1 = (2 ^ k - 1) + 2 ^ w := by omega
  rw [e, Nat.add_mod_right, Nat.mod_eq_of_lt (by omega)]

theorem run_fronts [Inhabited T] {k : Nat} (hk : k < 64) (fuel : Nat) :
    ∀ (pending : List T) (q : LFQueue T (2 ^ k)) (R : Nat), Holds q pending R →
      ∃ q1, run fuel (List.replicate pending.length Op.front) q = some (q1, pending.map some) ∧
        Holds q1 [] (R + pending.length) := by
  intro pending
  induction pending with
  | nil => intro q R h; exact ⟨q, rfl, h⟩
  | cons x rest ih =>
    intro q R h
    obtain ⟨q0, hf, hq0⟩ := holds_front hk fuel h
    obtain ⟨q1, hrun, hq1⟩ := ih q0 (R + 1) hq0
    refine ⟨q1, ?_, ?_⟩
    · simp only [List.length_cons, List.replicate_succ, run, hf, hrun, List.map_cons]
    · have e : R + (x :: rest).length = R + 1 + rest.length := by
        simp only [List.length_cons]; omega
      rw [e]; exact hq1

end Common

namespace Common

variable {T : Type} {N : Nat}

theorem brink_queue_holds : Holds brink_queue [41, 42] 18446744073709551613 := by
  refine ⟨rfl, by decide!, by decide!, rfl, ?_⟩
  intro i h
  have hi : i = 0 ∨ i = 1 := by
    simp only [List.length_cons, List.length_nil] at h
    omega
  rcases hi with rfl | rfl <;> rfl

/-- C14. Index continuity across counter overflow.  For every word width `w`, every capacity
`2 ^ k` with `k ≤ w` and every cursor value `c`: the index of the cursor after `c`, taken
modulo `2 ^ w`, is the index of `c` plus one modulo the capacity; this holds of the formula
`((c + 1) mod 2 ^ w) & (N - 1)` and of the index computed as the source computes it, of which
the 64-bit index and `fetch_add` of the queue are the instance `w = 64`.  Hence, for a queue of
capacity `2 ^ k`, `16 ≤ 2 ^ k < 2 ^ 64`, that holds `pending` and is not full, wherever its
cursors stand: a `push` writes the slot after the last one written, the write cursor `2 ^ 64 - 1`
wraps to `0`, and the following `front` calls return `pending` and then the pushed element, in
that order. -/
theorem slot_index_continuity [Inhabited T] (w k c : Nat) (hk : k ≤ w) :
    ((c + 1) % 2 ^ w) &&& (2 ^ k - 1) = ((c &&& (2 ^ k - 1)) + 1) % 2 ^ k ∧
    slot_index_w w (2 ^ k) (fetch_add_w w c 1).2 = (slot_index_w w (2 ^ k) c + 1) % 2 ^ k ∧
    (∀ n c1, slot_index n c1 = slot_index_w 64 n c1) ∧
    (∀ c1 d, fetch_add c1 d = fetch_add_w 64 c1 d) ∧
    (4 ≤ k → k < 64 → ∀ (fuel : Nat) (q : LFQueue T (2 ^ k)) (pending : List T) (R : Nat)
        (element : T), Holds q pending R → q.full = false →
      ∃ q1 q2, q.push fuel element = some q1 ∧
        slot_index (2 ^ k) q1.next_write_index_
          = (slot_index (2 ^ k) q.next_write_index_ + 1) % 2 ^ k ∧
        (q.next_write_index_ = SIZE_MOD - 1 → q1.next_write_index_ = 0) ∧
        run fuel (List.replicate (pending.length + 1) Op.front) q1
          = some (q2, (pending ++ [element]).map some)) := by
  refine ⟨and_pow_pred_succ w k c hk, ?_, fun _ _ => rfl, fun _ _ => rfl, ?_⟩
  · simp only [slot_index_w, fetch_add_w, pred_in_width w k hk]
    exact and_pow_pred_succ w k c hk
  · intro hk4 hk64 fuel q pending R element hq hnf
    have hlt := not_full_lt hk4 hk64 hnf
    rw [hq.cnt] at hlt
    have hq1 := holds_push hk64 hq (by omega) element
    obtain ⟨q2, hrun, _⟩ := run_fronts hk64 fuel (pending ++ [element]) _ R hq1
    refine ⟨q.push_body element, q2, push_of_not_full fuel q element hnf, ?_, ?_, ?_⟩
    · show slot_index (2 ^ k) (size_add q.next_write_index_ 1) = _
      unfold size_add
      rw [slot_index_wrapped k _ hk64, slot_index_pow k _ hk64]
      exact (Nat.mod_add_mod _ (2 ^ k) 1).symm
    · intro hw
      show size_add q.next_write_index_ 1 = 0
      rw [hw]; decide!
    · simpa using hrun

theorem slot_index_continuity_witness :
    4 ≤ 64 ∧
    ((18446744073709551615 + 1) % 2 ^ 64) &&& (2 ^ 4 - 1)
      = ((18446744073709551615 &&& (2 ^ 4 - 1)) + 1) % 2 ^ 4 ∧
    Holds brink_queue [41, 42] 18446744073709551613 ∧ brink_queue.full = false ∧
    ∃ q1 q2, brink_queue.push 0 43 = some q1 ∧
      slot_index (2 ^ 4) q1.next_write_index_
        = (slot_index (2 ^ 4) brink_queue.next_write_index_ + 1) % 2 ^ 4 ∧
      (brink_queue.next_write_index_ = SIZE_MOD - 1 → q1.next_write_index_ = 0) ∧
      run 0 (List.replicate ([41, 42].length + 1) Op.front) q1
        = some (q2, ([41, 42] ++ [43]).map some) :=
  ⟨by decide,
    (slot_index_continuity (T := Nat) 64 4 18446744073709551615 (by decide)).1,
    brink_queue_holds, by decide!,
    (slot_index_continuity (T := Nat) 64 4 18446744073709551615 (by decide)).2.2.2.2
      (by decide) (by decide) 0 brink_queue [41, 42] 18446744073709551613 43
      brink_queue_holds (by decide!)⟩

end Common

namespace Common

variable {T : Type} {N : Nat}

/-! ## What `front` leaves in the storage -/

/-- C11 as stated fails.  On the queue of 16 slots obtained from a fresh one by pushing `7`,
the count is `1`, `front` returns `7` from slot `0`, and slot `0` of the storage still
contains `7` afterwards. -/
theorem front_clears_slot_counterexample :
    0 < ((LFQueue.new Nat 16).push_body 7).num_elements_ ∧
    slot_index 16 ((LFQueue.new Nat 16).push_body 7).next_read_index_ = 0 ∧
    ∃ q1, ((LFQueue.new Nat 16).push_body 7).front 0 = some (some 7, q1) ∧
      q1.store_[0]? = some 7 :=
  ⟨by decide!, by decide!, _, front_of_nonempty 0 ((LFQueue.new Nat 16).push_body 7) (by decide!),
    by decide!⟩

/-- C11 amended.  For every queue of capacity `2 ^ k` below `2 ^ 64` with `2 ^ k` slots and
count greater than `0`: `front` returns the content `x` of slot `i = ri & (N - 1)` and leaves
the storage unchanged, so slot `i` still contains `x`; the count drops by one and the read
cursor moves past the element.  A worker that pops and runs the entry likewise leaves the
storage of the queue of its pool unchanged. -/
theorem front_keeps_slot [Inhabited T] (k : Nat) (hk : k < 64) (fuel : Nat)
    (q : LFQueue T (2 ^ k)) (hlen : q.store_.length = 2 ^ k) (hpos : 0 < q.num_elements_) :
    (∃ x q1, q.front fuel = some (some x, q1) ∧
      q.store_[slot_index (2 ^ k) q.next_read_index_]? = some x ∧
      q1.store_ = q.store_ ∧
      q1.store_[slot_index (2 ^ k) q.next_read_index_]? = some x ∧
      q1.num_elements_ = q.num_elements_ - 1 ∧
      q1.next_read_index_ = size_add q.next_read_index_ 1) ∧
    (∀ (W : Type) (p : ThreadPool W (2 ^ k)) (w : W), p.q.store_.length = 2 ^ k →
      0 < p.q.num_elements_ →
      ∃ x p1 w1, p.worker_iter fuel w = some (p1, w1, x) ∧
        p.q.store_[slot_index (2 ^ k) p.q.next_read_index_]? = some x ∧
        w1 = x.elim (some w) (fun g => g w) ∧
        p1.q.store_ = p.q.store_ ∧
        p1.q.store_[slot_index (2 ^ k) p.q.next_read_index_]? = some x) := by
  have hslot : ∀ {S : Type} [Inhabited S] (q : LFQueue S (2 ^ k)), q.store_.length = 2 ^ k →
      q.store_[slot_index (2 ^ k) q.next_read_index_]?
        = some (q.store_.getD (slot_index (2 ^ k) q.next_read_index_) default) := by
    intro S _ q hlen
    have hlt : slot_index (2 ^ k) q.next_read_index_ < q.store_.length := by
      rw [slot_index_pow k _ hk, hlen]; exact Nat.mod_lt _ (by positivity)
    rw [List.getD_eq_getElem?_getD, List.getElem?_eq_getElem hlt]; rfl
  refine ⟨⟨_, _, front_of_nonempty fuel q hpos, hslot q hlen, rfl, hslot q hlen, rfl, rfl⟩, ?_⟩
  intro W p w hlen2 hpos2
  have hf := front_of_nonempty fuel p.q hpos2
  cases hx : p.q.store_.getD (slot_index (2 ^ k) p.q.next_read_index_) default with
  | none =>
    rw [hx] at hf
    refine ⟨none, (ThreadPool.mk p.stop (LFQueue.mk p.q.store_ (size_add p.q.next_read_index_ 1)
      p.q.next_write_index_ (p.q.num_elements_ - 1))), some w,
      by simp only [ThreadPool.worker_iter, hf], ?_, rfl, rfl, ?_⟩
    · rw [hslot p.q hlen2, hx]
    · rw [hslot p.q hlen2, hx]
  | some g =>
    rw [hx] at hf
    refine ⟨some g, (ThreadPool.mk p.stop (LFQueue.mk p.q.store_ (size_add p.q.next_read_index_ 1)
      p.q.next_write_index_ (p.q.num_elements_ - 1))), g w,
      by simp only [ThreadPool.worker_iter, hf], ?_, rfl, rfl, ?_⟩
    · rw [hslot p.q hlen2, hx]
    · rw [hslot p.q hlen2, hx]

theorem front_keeps_slot_witness :
    ((LFQueue.new Nat (2 ^ 4)).push_body 7).store_.length = 2 ^ 4 ∧
    0 < ((LFQueue.new Nat (2 ^ 4)).push_body 7).num_elements_ ∧
    ∃ x q1, ((LFQueue.new Nat (2 ^ 4)).push_body 7).front 0 = some (some x, q1) ∧
      ((LFQueue.new Nat (2 ^ 4)).push_body 7).store_[slot_index (2 ^ 4)
        ((LFQueue.new Nat (2 ^ 4)).push_body 7).next_read_index_]? = some x ∧
      q1.store_ = ((LFQueue.new Nat (2 ^ 4)).push_body 7).store_ ∧
      q1.store_[slot_index (2 ^ 4)
        ((LFQueue.new Nat (2 ^ 4)).push_body 7).next_read_index_]? = some x ∧
      q1.num_elements_ = ((LFQueue.new Nat (2 ^ 4)).push_body 7).num_elements_ - 1 ∧
      q1.next_read_index_ = size_add ((LFQueue.new Nat (2 ^ 4)).push_body 7).next_read_index_ 1 :=
  ⟨by decide!, by decide!,
    (front_keeps_slot 4 (by decide) 0 ((LFQueue.new Nat (2 ^ 4)).push_body 7) (by decide!)
      (by decide!)).1⟩

end Common

namespace Common

variable {T : Type} {N : Nat}

/-! ## Cursor steps and frames -/

theorem run_rounds (hN11 : 11 ≤ N) (hN : N < SIZE_MOD) (fuel : Nat) :
    ∀ (n : Nat) (q : LFQueue Nat N), q.num_elements_ = 0 →
      q.next_write_index_ < SIZE_MOD → q.next_read_index_ < SIZE_MOD →
      ∃ q1 rs, run fuel (rounds n) q = some (q1, rs) ∧ q1.num_elements_ = 0 ∧
        q1.next_write_index_ = (q.next_write_index_ + n) % SIZE_MOD ∧
        q1.next_read_index_ = (q.next_read_index_ + n) % SIZE_MOD := by
  have hpos : 0 < SIZE_MOD := by unfold SIZE_MOD; positivity
  intro n
  induction n with
  | zero =>
    intro q h0 hw hr
    exact ⟨q, [], rfl, h0, by rw [Nat.add_zero, Nat.mod_eq_of_lt hw],
      by rw [Nat.add_zero, Nat.mod_eq_of_lt hr]⟩
  | succ n ih =>
    intro q h0 hw hr
    have hs := size_sub_ten (n := N) (by omega) hN
    have hnf : q.full = false := by
      simp only [LFQueue.full, decide_eq_false_iff_not, hs, h0]; omega
    have hc1 : (q.push_body n).num_elements_ = 1 := by
      show size_add q.num_elements_ 1 = 1
      rw [h0]; decide!
    have hf := front_of_nonempty fuel (q.push_body n) (by rw [hc1]; decide)
    obtain ⟨q1, rs, hrun, h1, h2, h3⟩ :=
      ih (LFQueue.mk (q.push_body n).store_ (size_add (q.push_body n).next_read_index_ 1)
        (q.push_body n).next_write_index_ ((q.push_body n).num_elements_ - 1))
        (by show (q.push_body n).num_elements_ - 1 = 0; rw [hc1])
        (by show size_add q.next_write_index_ 1 < SIZE_MOD; exact Nat.mod_lt _ hpos)
        (by show size_add q.next_read_index_ 1 < SIZE_MOD; exact Nat.mod_lt _ hpos)
    dsimp only at h2 h3
    refine ⟨q1, some ((q.push_body n).store_.getD
      (slot_index N (q.push_body n).next_read_index_) default) :: rs, ?_, h1, ?_, ?_⟩
    · simp only [rounds, run, push_of_not_full fuel q n hnf, hf, hrun]
    · rw [h2]
      show (size_add q.next_write_index_ 1 + n) % SIZE_MOD = _
      unfold size_add; rw [size_mod_eq]; omega
    · rw [h3]
      show (size_add q.next_read_index_ 1 + n) % SIZE_MOD = _
      unfold size_add; rw [size_mod_eq]; omega

/-- C12 as stated fails.  A fresh queue of 16 slots on which `2 ^ 64 - 1` rounds of one `push`
and one `front` have run has its write cursor at `2 ^ 64 - 1`; the next `push` returns and
leaves the write cursor at `0`, below its old value.  The read cursor wraps the same way in
the `front` that follows. -/
theorem push_lowers_cursor_counterexample :
    ∃ q rs q1 q2, run 0 (rounds 18446744073709551615) (LFQueue.new Nat 16) = some (q, rs) ∧
      q.next_write_index_ = 18446744073709551615 ∧
      q.next_read_index_ = 18446744073709551615 ∧
      q.push 0 7 = some q1 ∧ q1.next_write_index_ = 0 ∧
      q1.next_write_index_ < q.next_write_index_ ∧
      (q1.front 0).map Prod.snd = some q2 ∧ q2.next_read_index_ = 0 ∧
      q2.next_read_index_ < q1.next_read_index_ := by
  obtain ⟨q, rs, hrun, h0, hw, hr⟩ :=
    run_rounds (N := 16) (by decide) (by decide!) 0 18446744073709551615 (LFQueue.new Nat 16)
      rfl (by decide!) (by decide!)
  have hw1 : q.next_write_index_ = 18446744073709551615 := by rw [hw]; decide!
  have hr1 : q.next_read_index_ = 18446744073709551615 := by rw [hr]; decide!
  have hnf : q.full = false := by
    simp only [LFQueue.full, decide_eq_false_iff_not, h0]; decide!
  have hw2 : (q.push_body 7).next_write_index_ = 0 := by
    show size_add q.next_write_index_ 1 = 0
    rw [hw1]; decide!
  have hc1 : (q.push_body 7).num_elements_ = 1 := by
    show size_add q.num_elements_ 1 = 1
    rw [h0]; decide!
  have hr2 : size_add (q.push_body 7).next_read_index_ 1 = 0 := by
    show size_add q.next_read_index_ 1 = 0
    rw [hr1]; decide!
  refine ⟨q, rs, q.push_body 7,
    LFQueue.mk (q.push_body 7).store_ (size_add (q.push_body 7).next_read_index_ 1)
      (q.push_body 7).next_write_index_ ((q.push_body 7).num_elements_ - 1),
    hrun, hw1, hr1, push_of_not_full 0 q 7 hnf, hw2, by rw [hw2, hw1]; decide, ?_, hr2, ?_⟩
  · rw [front_of_nonempty 0 (q.push_body 7) (by rw [hc1]; decide)]
    rfl
  · show size_add (q.push_body 7).next_read_index_ 1 < q.next_read_index_
    rw [hr2, hr1]; decide

/-- C12 amended.  For every queue state whose cursors are `size_t` values: a `push` returns
exactly when `full()` is false, and then it advances the write cursor by one modulo `2 ^ 64`
(by exactly one unless the cursor was `2 ^ 64 - 1`, which wraps to `0`), increases the count by
exactly one, writes the slot at index (old write cursor) `& (N - 1)` and leaves the read cursor
and every other slot unchanged; a `front` on a count greater than `0` returns the slot at index
(old read cursor) `& (N - 1)`, advances the read cursor by one modulo `2 ^ 64` in the same way,
decreases the count by exactly one and leaves the write cursor and the storage unchanged; a
`front` on count `0` changes nothing.  No call lowers a cursor except by that wrap. -/
theorem lfqueue_cursor_steps [Inhabited T] (fuel : Nat) (q : LFQueue T N) (element : T)
    (hw : q.next_write_index_ < SIZE_MOD) (hr : q.next_read_index_ < SIZE_MOD) :
    (q.full = true → q.push fuel element = none) ∧
    (q.full = false → ∃ q1, q.push fuel element = some q1 ∧
      q1.next_write_index_ = (q.next_write_index_ + 1) % SIZE_MOD ∧
      (q.next_write_index_ ≠ SIZE_MOD - 1 → q1.next_write_index_ = q.next_write_index_ + 1) ∧
      (q.next_write_index_ = SIZE_MOD - 1 → q1.next_write_index_ = 0) ∧
      q1.num_elements_ = q.num_elements_ + 1 ∧
      q1.next_read_index_ = q.next_read_index_ ∧
      q1.store_ = q.store_.set (slot_index N q.next_write_index_) element ∧
      (∀ j, j ≠ slot_index N q.next_write_index_ → q1.store_[j]? = q.store_[j]?)) ∧
    (0 < q.num_elements_ → ∃ x q1, q.front fuel = some (some x, q1) ∧
      x = q.store_.getD (slot_index N q.next_read_index_) default ∧
      q1.next_read_index_ = (q.next_read_index_ + 1) % SIZE_MOD ∧
      (q.next_read_index_ ≠ SIZE_MOD - 1 → q1.next_read_index_ = q.next_read_index_ + 1) ∧
      (q.next_read_index_ = SIZE_MOD - 1 → q1.next_read_index_ = 0) ∧
      q1.num_elements_ + 1 = q.num_elements_ ∧
      q1.next_write_index_ = q.next_write_index_ ∧
      q1.store_ = q.store_) ∧
    (q.num_elements_ = 0 → q.front fuel = some (none, q)) := by
  refine ⟨push_of_full fuel q element, fun hnf => ?_, fun hpos => ?_, front_of_empty fuel q⟩
  · have hc := not_full_succ_lt hnf
    refine ⟨q.push_body element, push_of_not_full fuel q element hnf, rfl, ?_, ?_, ?_, rfl, rfl, ?_⟩
    · intro hne
      show size_add q.next_write_index_ 1 = _
      unfold size_add; rw [size_mod_eq] at *; omega
    · intro he
      show size_add q.next_write_index_ 1 = _
      unfold size_add; rw [size_mod_eq] at *; omega
    · show size_add q.num_elements_ 1 = _
      unfold size_add; exact Nat.mod_eq_of_lt hc
    · intro j hj
      show (q.store_.set (slot_index N q.next_write_index_) element)[j]? = _
      rw [List.getElem?_set_ne (Ne.symm hj)]
  · refine ⟨_, LFQueue.mk q.store_ (size_add q.next_read_index_ 1) q.next_write_index_
      (q.num_elements_ - 1), front_of_nonempty fuel q hpos, rfl, rfl, ?_, ?_, ?_, rfl, rfl⟩
    · intro hne
      show size_add q.next_read_index_ 1 = _
      unfold size_add; rw [size_mod_eq] at *; omega
    · intro he
      show size_add q.next_read_index_ 1 = _
      unfold size_add; rw [size_mod_eq] at *; omega
    · show q.num_elements_ - 1 + 1 = q.num_elements_
      omega

theorem lfqueue_cursor_steps_witness :
    brink_queue.next_write_index_ < SIZE_MOD ∧ brink_queue.next_read_index_ < SIZE_MOD ∧
    brink_queue.full = false ∧
    (∃ q1, brink_queue.push 0 43 = some q1 ∧
      q1.next_write_index_ = (brink_queue.next_write_index_ + 1) % SIZE_MOD ∧
      (brink_queue.next_write_index_ ≠ SIZE_MOD - 1 →
        q1.next_write_index_ = brink_queue.next_write_index_ + 1) ∧
      (brink_queue.next_write_index_ = SIZE_MOD - 1 → q1.next_write_index_ = 0) ∧
      q1.num_elements_ = brink_queue.num_elements_ + 1 ∧
      q1.next_read_index_ = brink_queue.next_read_index_ ∧
      q1.store_ = brink_queue.store_.set (slot_index (2 ^ 4) brink_queue.next_write_index_) 43 ∧
      (∀ j, j ≠ slot_index (2 ^ 4) brink_queue.next_write_index_ →
        q1.store_[j]? = brink_queue.store_[j]?)) ∧
    0 < brink_queue.num_elements_ ∧
    (brink_queue.front 0).map Prod.fst = some (some 41) :=
  ⟨by decide!, by decide!, by decide!,
    (lfqueue_cursor_steps 0 brink_queue 43 (by decide!) (by decide!)).2.1 (by decide!),
    by decide!,
    match (lfqueue_cursor_steps 0 brink_queue 43 (by decide!) (by decide!)).2.2.1 (by decide!) with
    | ⟨x, q1, h1, h2, _⟩ => by rw [h1, h2]; rfl⟩

end Common

namespace ThreadPool

open Common

variable {W : Type} {N : Nat}

/-! ## The exit of the worker loop -/

theorem worker_wait_of_nonempty (fuel : Nat) (p : ThreadPool W N) (h : p.q.empty = false) :
    p.worker_wait fuel = some () := by
  cases fuel <;> simp [worker_wait, h]

theorem worker_wait_of_idle (fuel : Nat) (p : ThreadPool W N) (hs : p.stop = false)
    (he : p.q.empty = true) : p.worker_wait fuel = none := by
  induction fuel with
  | zero => simp [worker_wait, hs, he]
  | succ n ih => rw [worker_wait]; simp [hs, he, ih]

theorem worker_succ (fuel : Nat) (p : ThreadPool W N) (w : W) :
    p.worker (fuel + 1) w =
      match p.worker_round fuel w with
      | none => none
      | some (WorkerState.terminated p1 w1, _) => some (WorkerEnd.returned p1 w1 [])
      | some (WorkerState.aborted p1, ran) => some (WorkerEnd.aborted p1 ran.toList)
      | some (WorkerState.running p1 w1, ran) =>
        match p1.worker fuel w1 with
        | none => none
        | some e => some (e.after ran) := by
  simp only [worker, worker_round]
  cases hwait : p.worker_wait fuel with
  | none => rfl
  | some u =>
    simp only []
    by_cases hc : (p.stop && p.q.empty) = true
    · simp only [hc, if_true]
    · simp only [hc, if_false]
      cases hit : p.worker_iter fuel w with
      | none => rfl
      | some r =>
        obtain ⟨p1, w1, ran⟩ := r
        cases w1 with
        | none => rfl
        | some w2 => rfl

/-- C13. Worker exit condition.  In the step relation of the worker loop, for every pool
state: a round ends in the terminated state only when the `stop` flag is set and the queue is
empty, and then the pool and the program state are untouched; with `stop` clear, or with a
queue that reports non-empty, no round ends in the terminated state; with `stop` set and the
queue empty the round does terminate; with `stop` clear and the queue empty the worker spins
and no round completes; and in every round on a non-empty queue the worker pops exactly one
entry (the count drops by one) and calls it exactly when it is non-null, after which it stays
in the loop when there was no call or the call returned, and is aborted, not terminated, when
the call threw.  A terminated or aborted worker makes no further step. -/
theorem worker_exit_condition (fuel : Nat) (p : ThreadPool W N) (w : W) :
    (∀ p1 w1, worker_steps fuel (WorkerState.running p w) (WorkerState.terminated p1 w1) →
      p.stop = true ∧ p.q.empty = true ∧ p1 = p ∧ w1 = w) ∧
    (p.stop = false → ∀ p1 w1,
      ¬ worker_steps fuel (WorkerState.running p w) (WorkerState.terminated p1 w1)) ∧
    (p.q.empty = false → ∀ p1 w1,
      ¬ worker_steps fuel (WorkerState.running p w) (WorkerState.terminated p1 w1)) ∧
    (p.stop = true → p.q.empty = true →
      p.worker_round fuel w = some (WorkerState.terminated p w, none)) ∧
    (p.stop = false → p.q.empty = true → p.worker_round fuel w = none) ∧
    (p.q.empty = false → ∃ x q1, p.q.front fuel = some (some x, q1) ∧
      q1.num_elements_ + 1 = p.q.num_elements_ ∧
      p.worker_round fuel w
        = some (WorkerState.after_call { stop := p.stop, q := q1 }
            (x.elim (some w) (fun g => g w)), x)) ∧
    (∀ s1, ¬ worker_steps fuel (WorkerState.terminated p w) s1) ∧
    (∀ s1, ¬ worker_steps fuel (WorkerState.aborted p) s1) := by
  have key : ∀ p1 w1,
      worker_steps fuel (WorkerState.running p w) (WorkerState.terminated p1 w1) →
      p.stop = true ∧ p.q.empty = true ∧ p1 = p ∧ w1 = w := by
    intro p1 w1 hstep
    obtain ⟨ran, hr⟩ := hstep
    simp only [worker_round] at hr
    cases hwait : p.worker_wait fuel with
    | none => rw [hwait] at hr; cases hr
    | some u =>
      rw [hwait] at hr
      simp only [] at hr
      by_cases hc : (p.stop && p.q.empty) = true
      · simp only [hc, if_true, Option.some.injEq, Prod.mk.injEq, WorkerState.terminated.injEq]
          at hr
        simp only [Bool.and_eq_true] at hc
        exact ⟨hc.1, hc.2, hr.1.1.symm, hr.1.2.symm⟩
      · simp only [hc, if_false] at hr
        cases hit : p.worker_iter fuel w with
        | none => rw [hit] at hr; cases hr
        | some r =>
          obtain ⟨p2, w2, ran2⟩ := r
          rw [hit] at hr
          cases w2 with
          | none => simp [WorkerState.after_call] at hr
          | some w3 => simp [WorkerState.after_call] at hr
  refine ⟨key, ?_, ?_, ?_, ?_, ?_, fun s1 h => h, fun s1 h => h⟩
  · intro hs p1 w1 hstep
    rw [(key p1 w1 hstep).1] at hs
    cases hs
  · intro he p1 w1 hstep
    rw [(key p1 w1 hstep).2.1] at he
    cases he
  · intro hs he
    simp [worker_round, worker_wait_of_stop fuel p hs, hs, he]
  · intro hs he
    simp [worker_round, worker_wait_of_idle fuel p hs he]
  · intro he
    have hpos : 0 < p.q.num_elements_ := by
      simp only [LFQueue.empty, decide_eq_false_iff_not] at he
      omega
    have hf := front_of_nonempty fuel p.q hpos
    refine ⟨_, LFQueue.mk p.q.store_ (size_add p.q.next_read_index_ 1) p.q.next_write_index_
      (p.q.num_elements_ - 1), hf, by show p.q.num_elements_ - 1 + 1 = _; omega, ?_⟩
    simp only [worker_round, worker_wait_of_nonempty fuel p he, he, Bool.and_false,
      Bool.false_eq_true, if_false, worker_iter, hf]
    cases p.q.store_.getD (slot_index N p.q.next_read_index_) default with
    | none => rfl
    | some g => rfl

theorem worker_exit_condition_witness :
    demo_pool.stop = true ∧ demo_pool.q.empty = false ∧
    (∀ p1 w1, ¬ worker_steps 0 (WorkerState.running demo_pool ([] : List Nat))
      (WorkerState.terminated p1 w1)) ∧
    ∃ x q1, demo_pool.q.front 0 = some (some x, q1) ∧
      q1.num_elements_ + 1 = demo_pool.q.num_elements_ ∧
      demo_pool.worker_round 0 []
        = some (WorkerState.after_call { stop := demo_pool.stop, q := q1 }
            (x.elim (some []) (fun g => g [])), x) :=
  ⟨rfl, by decide!,
    (worker_exit_condition 0 demo_pool []).2.2.1 (by decide!),
    (worker_exit_condition 0 demo_pool []).2.2.2.2.2.1 (by decide!)⟩

end ThreadPool

namespace Concurrent

open Common

variable {N : Nat}

/-! ## The exit of a worker among other threads -/

theorem worker_step_done (s : Sys N) (t : Nat) (h : (s.workers t).pc ≠ WorkerPc.done)
    (hd : ((worker_step s t (s.workers t)).workers t).pc = WorkerPc.done) :
    (s.workers t).pc = WorkerPc.exit_check ∧ s.stop = true ∧ s.q.empty = true := by
  cases hpc : (s.workers t).pc with
  | spin =>
    simp only [worker_step, hpc] at hd
    split at hd
    · rw [hpc] at hd; cases hd
    · simp at hd
  | exit_check =>
    simp only [worker_step, hpc] at hd
    split at hd
    · next hc =>
      simp only [Bool.and_eq_true] at hc
      exact ⟨rfl, hc.1, hc.2⟩
    · simp at hd
  | load => simp [worker_step, hpc] at hd
  | cas =>
    simp only [worker_step, hpc, compare_exchange_strong] at hd
    split at hd
    · by_cases hce : s.q.num_elements_ = (s.workers t).expected
      · simp [hce] at hd
      · simp [hce, hpc] at hd
    · simp at hd
  | fetch => simp [worker_step, hpc] at hd
  | read => simp [worker_step, hpc] at hd
  | call =>
    simp only [worker_step, hpc] at hd
    split at hd <;> simp at hd
  | incr => simp [worker_step, hpc] at hd
  | resolve =>
    simp only [worker_step, hpc] at hd
    split at hd <;> simp at hd
  | done => exact absurd hpc h

end Concurrent
